import Mathlib

/-!
Verification of the poly_arb_cli signal-derivation core.

This file gives a shallow embedding, in Lean 4, of the pure decision logic of
the repository: the depth-aware fill pricing engine (`services/pricing.py`),
the websocket stream state (`connectors/polymarket_ws.py`), the fuzzy market
matcher (`services/matcher.py`), the arbitrage scanner (`services/scanner.py`),
the rebalance signal detector (`services/rebalance_monitor.py`), the
barrier/digital probability engine (`services/barrier_pricing.py` and
`services/hedge_scanner.py`), and the hedge scanner control flow.

Python floats are modelled as exact rationals (`ℚ`) for the discrete
book-walking and signal logic, and as reals (`ℝ`) for the closed-form
probability models.  Fallible paths (exceptions raised by the Python code)
are modelled with `Except`/`Option`.  Free-text presentation fields (the
formatted `price_breakdown` and `reason` strings) carry no decision content
and are not modelled.
-/

/-! ## Data model (`types.py`) -/

/-- One order-book level: `OrderBookLevel` in `types.py`. -/
structure OrderBookLevel where
  price : ℚ
  size : ℚ
deriving DecidableEq, Repr

/-- An order book: `OrderBook` in `types.py`; bids and asks in venue order. -/
structure OrderBook where
  bids : List OrderBookLevel
  asks : List OrderBookLevel
deriving DecidableEq, Repr

/-- `OrderBook.best_bid`: the first bid level, if any. -/
def OrderBook.best_bid (b : OrderBook) : Option OrderBookLevel :=
  b.bids.head?

/-- `OrderBook.best_ask`: the first ask level, if any. -/
def OrderBook.best_ask (b : OrderBook) : Option OrderBookLevel :=
  b.asks.head?

/-- Side of a fill request, the `Literal["buy", "sell"]` of `pricing.py`. -/
inductive Side
  | buy
  | sell
deriving DecidableEq, Repr

/-- Result record of `compute_fill`: `FillComputation` in `pricing.py`. -/
structure FillComputation where
  average_price : ℚ
  filled_size : ℚ
  notional : ℚ
deriving DecidableEq, Repr

namespace Pricing

/-- The ladder consumed by `compute_fill`: asks for a buy, bids for a sell
(`levels = orderbook.asks if side == "buy" else orderbook.bids`). -/
def sideLevels (orderbook : OrderBook) (side : Side) : List OrderBookLevel :=
  match side with
  | .buy => orderbook.asks
  | .sell => orderbook.bids

/-- The accumulation loop of `compute_fill`: walks the levels from the front,
taking `min(level.size, remaining)` at each level, accumulating
`(notional, filled)`, and stopping as soon as `remaining <= 0` after a take. -/
def fillWalk : List OrderBookLevel → ℚ → ℚ × ℚ
  | [], _ => (0, 0)
  | level :: rest, remaining =>
    let take_size := min level.size remaining
    let rem := remaining - take_size
    if rem ≤ 0 then (take_size * level.price, take_size)
    else
      let p := fillWalk rest rem
      (take_size * level.price + p.1, take_size + p.2)

/-- `compute_fill(orderbook, side, size)` from `services/pricing.py`:
walks the opposing ladder and returns the volume-weighted average price,
filled size and notional; the sentinel `⟨1, 0, 0⟩` when nothing filled. -/
def compute_fill (orderbook : OrderBook) (side : Side) (size : ℚ) : FillComputation :=
  let p := fillWalk (sideLevels orderbook side) size
  if p.2 = 0 then ⟨1, 0, 0⟩ else ⟨p.1 / p.2, p.2, p.1⟩

/-- `best_price(orderbook, side)` from `services/pricing.py`: the single best
opposing level's price, or the sentinel `1` when that side is empty. -/
def best_price (orderbook : OrderBook) (side : Side) : ℚ :=
  match (match side with | .buy => orderbook.best_ask | .sell => orderbook.best_bid) with
  | some level => level.price
  | none => 1

/-- `clamp_slippage(entry_price, avg_price, max_slippage_bps)` from
`services/pricing.py`: true iff the deviation in basis points is within the
bound; always false when the entry price is exactly zero. -/
def clamp_slippage (entry_price avg_price : ℚ) (max_slippage_bps : ℚ) : Bool :=
  if entry_price = 0 then false
  else decide (|avg_price - entry_price| / entry_price * 10000 ≤ max_slippage_bps)

/-- Concrete one-ask book used for the C7 counterexample and witnesses. -/
def oneAskBook : OrderBook := ⟨[], [⟨1/2, 10⟩]⟩

end Pricing

/-! ## Stream state (`connectors/polymarket_ws.py`) -/

namespace WS

/-- The value of a numeric field of a feed message, as seen by
`float(data.get(key) or 0.0)` in `append_last_trade`: the field may be absent
(`data.get` returns `None`), present but falsy (empty string, `0`, `null`),
present and parseable to a number, or present but unparseable (in which case
`float` raises and the whole message is dropped). -/
inductive RawNum
  | missing
  | falsy
  | num (q : ℚ)
  | malformed
deriving DecidableEq, Repr

/-- Models `float(data.get(key) or 0.0)`: a missing or falsy field coerces to
0.0; an unparseable one raises (`none`). -/
def coerceNum : RawNum → Option ℚ
  | .missing => some 0
  | .falsy => some 0
  | .num q => some q
  | .malformed => none

/-- The raw `timestamp` field: absent, an integer-parseable value (milliseconds),
or unparseable (then `int(ts_raw)` raises). -/
inductive RawTs
  | missing
  | intval (n : ℤ)
  | malformed
deriving DecidableEq, Repr

/-- Models `int(int(ts_raw) / 1000) if ts_raw is not None else 0`: milliseconds
to seconds, truncated toward zero. -/
def coerceTs : RawTs → Option ℤ
  | .missing => some 0
  | .intval n => some (n.tdiv 1000)
  | .malformed => none

/-- A `last_trade_price` message.  The string fields go through
`str(data.get(k) or "")`, which never raises; they are modelled as the
resulting strings. -/
structure LastTradeMsg where
  asset_id : String
  market : String
  side : String
  size : RawNum
  price : RawNum
  timestamp : RawTs
deriving DecidableEq, Repr

/-- `TradeEvent` from `types.py` (decision-relevant fields; the optional trader
metadata fields carry no logic). -/
structure TradeEvent where
  condition_id : String
  token_id : String
  side : String
  size : ℚ
  price : ℚ
  notional : ℚ
  timestamp : ℤ
  title : String
deriving DecidableEq, Repr

/-- Append to a deque with `maxlen = cap`: keeps the last `cap` elements. -/
def ringAppend (cap : ℕ) (buf : List TradeEvent) (t : TradeEvent) : List TradeEvent :=
  (buf ++ [t]).drop (buf.length + 1 - cap)

/-- `PolymarketStreamState.append_last_trade` from
`connectors/polymarket_ws.py`.  The per-condition ring buffers are modelled as
a map from condition id to the buffer contents; all buffers share the single
capacity `cap` (`max_trades_per_market`, default 200 — the in-code
`maxlen` rebuild is the identity when the capacities already agree).  If any
numeric coercion raises, the whole message is ignored; otherwise one trade
with `notional = size * price` and the millisecond timestamp converted to
seconds is appended to the buffer keyed by the message's `market` field. -/
def append_last_trade (cap : ℕ) (trades_by_condition : String → List TradeEvent)
    (data : LastTradeMsg) : String → List TradeEvent :=
  match coerceNum data.size, coerceNum data.price, coerceTs data.timestamp with
  | some size, some price, some ts =>
    let trade : TradeEvent :=
      ⟨data.market, data.asset_id, data.side, size, price, size * price, ts, data.market⟩
    fun c =>
      if c = data.market then ringAppend cap (trades_by_condition data.market) trade
      else trades_by_condition c
  | _, _, _ => trades_by_condition

/-- A message whose `price` field is missing (C2 counterexample input). -/
def missingPriceMsg : LastTradeMsg :=
  ⟨"a1", "c1", "BUY", .num 5, .missing, .intval 5123⟩

/-- A fully well-formed message (C2 witness input). -/
def okMsg : LastTradeMsg :=
  ⟨"a1", "c1", "BUY", .num 4, .num (1/2), .intval 5123⟩

/-- A message whose `size` field is missing (C2 witness input for the
missing-field coercion). -/
def missingSizeMsg : LastTradeMsg :=
  ⟨"a1", "c1", "SELL", .missing, .num (1/2), .intval 5123⟩

end WS

/-! ## Markets and the rebalance signal detector (`services/rebalance_monitor.py`) -/

/-- `Platform` from `types.py`. -/
inductive Platform
  | polymarket
  | opinion
deriving DecidableEq, Repr

/-- `Market` from `types.py` (decision-relevant fields; category, volume,
liquidity and tags are presentation metadata with no logic in the modelled
components).  The optional string ids are falsy in Python when `None` or
empty. -/
structure Market where
  platform : Platform
  market_id : String
  title : String
  condition_id : Option String
  yes_token_id : Option String
  no_token_id : Option String
deriving DecidableEq, Repr

namespace Rebalance

/-- `RebalanceSignal` from `types.py` (the free-text `reason` field is
formatted presentation text and is not modelled). -/
structure RebalanceSignal where
  market : Market
  direction : String
  current_yes : ℚ
  baseline_yes : ℚ
  delta : ℚ
  last_trade_notional : ℚ
  window_seconds : ℤ
deriving DecidableEq, Repr

/-- `PolymarketStreamState` as read by the monitor: order books keyed by
token id, trade ring buffers keyed by condition id. -/
structure StreamState where
  orderbooks : String → Option OrderBook
  trades_by_condition : String → List WS.TradeEvent

/-- `PolymarketStreamState.get_orderbook_for_market`: resolves the yes/no
token id (a falsy — absent or empty — id yields `None`) and looks the book
up. -/
def get_orderbook_for_market (state : StreamState) (market : Market) (side : String) :
    Option OrderBook :=
  let token_id := if side.toLower = "yes" then market.yes_token_id else market.no_token_id
  match token_id with
  | none => none
  | some t => if t = "" then none else state.orderbooks t

/-- `PolymarketStreamState.get_last_trades`: the last `limit` trades of the
condition's ring buffer (Python `list(buf)[-limit:]`, which is the whole
buffer when `limit` is zero). -/
def get_last_trades (state : StreamState) (condition_id : String) (limit : ℕ) :
    List WS.TradeEvent :=
  let buf := state.trades_by_condition condition_id
  if limit = 0 then buf else buf.drop (buf.length - limit)

/-- `RebalanceMonitor._estimate_yes_price`: bid/ask midpoint, or the single
quoted side, or `None` on an empty book. -/
def estimate_yes_price (book : OrderBook) : Option ℚ :=
  match book.best_bid, book.best_ask with
  | some best_bid, some best_ask => some ((best_bid.price + best_ask.price) / 2)
  | some best_bid, none => some best_bid.price
  | none, some best_ask => some best_ask.price
  | none, none => none

/-- `RebalanceMonitor._update_baseline`: `baseline = price` on first
observation, else the EMA `alpha * price + (1 - alpha) * previous`; returns
the new baseline and the updated baseline map. -/
def update_baseline (ema_alpha : ℚ) (baseline_yes : String → Option ℚ)
    (condition_id : String) (price : ℚ) : ℚ × (String → Option ℚ) :=
  let baseline :=
    match baseline_yes condition_id with
    | none => price
    | some previous => ema_alpha * price + (1 - ema_alpha) * previous
  (baseline, fun c => if c = condition_id then some baseline else baseline_yes c)

/-- The keyword arguments of `detect_signals`. -/
structure DetectParams where
  min_abs_move : ℚ
  min_notional : ℚ
  max_age_seconds : ℤ
  min_trades : ℕ
deriving Repr

/-- One iteration of the `for market in markets` loop of
`RebalanceMonitor.detect_signals`: either skips (`continue`), emits one
signal, or raises (`trades[-1]` on an empty list when `min_trades` is 0). -/
def detectStep (ema_alpha : ℚ) (state : StreamState) (p : DetectParams) (now_ts : ℤ)
    (baseline_yes : String → Option ℚ) (market : Market) :
    Except String (Option RebalanceSignal × (String → Option ℚ)) :=
  if market.platform ≠ Platform.polymarket then .ok (none, baseline_yes)
  else
    match market.condition_id with
    | none => .ok (none, baseline_yes)
    | some cid =>
      if cid = "" then .ok (none, baseline_yes)
      else
        match market.yes_token_id with
        | none => .ok (none, baseline_yes)
        | some ytok =>
          if ytok = "" then .ok (none, baseline_yes)
          else
            match get_orderbook_for_market state market "yes" with
            | none => .ok (none, baseline_yes)
            | some book =>
              match estimate_yes_price book with
              | none => .ok (none, baseline_yes)
              | some current_yes =>
                let r := update_baseline ema_alpha baseline_yes cid current_yes
                let delta := current_yes - r.1
                if |delta| < p.min_abs_move then .ok (none, r.2)
                else
                  let trades := get_last_trades state cid 50
                  if trades.length < p.min_trades then .ok (none, r.2)
                  else
                    match trades.getLast? with
                    | none => .error "IndexError: list index out of range"
                    | some last_trade =>
                      let age := now_ts - last_trade.timestamp
                      if age < 0 ∨ age > p.max_age_seconds then .ok (none, r.2)
                      else if last_trade.notional < p.min_notional then .ok (none, r.2)
                      else
                        .ok (some ⟨market,
                              if delta > 0 then "short_yes" else "short_no",
                              current_yes, r.1, delta, last_trade.notional,
                              p.max_age_seconds⟩, r.2)

/-- The whole market loop, threading the baseline map. -/
def detectLoop (ema_alpha : ℚ) (state : StreamState) (p : DetectParams) (now_ts : ℤ) :
    (String → Option ℚ) → List Market →
      Except String (List RebalanceSignal × (String → Option ℚ))
  | baseline_yes, [] => .ok ([], baseline_yes)
  | baseline_yes, market :: rest =>
    match detectStep ema_alpha state p now_ts baseline_yes market with
    | .error e => .error e
    | .ok (osig, baselines) =>
      match detectLoop ema_alpha state p now_ts baselines rest with
      | .error e => .error e
      | .ok (sigs, bfinal) =>
        .ok ((match osig with | some s => s :: sigs | none => sigs), bfinal)

/-- The descending sort key of `detect_signals`:
`(abs(delta), last_trade_notional)` lexicographically, larger first. -/
def signalPriority (a b : RebalanceSignal) : Prop :=
  |b.delta| < |a.delta| ∨ (|b.delta| = |a.delta| ∧ b.last_trade_notional ≤ a.last_trade_notional)

instance : DecidableRel signalPriority := fun a b => by
  unfold signalPriority
  infer_instance

/-- `RebalanceMonitor.detect_signals`.  When `now` is left at its default
`None`, the source executes `datetime.utcnow().replace(tz=timezone.utc)`;
`datetime.replace` accepts no keyword named `tz` (the parameter is `tzinfo`),
so this raises `TypeError` before any market is examined — modelled as the
error case.  Otherwise `now` is the injected time, taken here directly as a
unix timestamp (`now_ts = int(now.timestamp())`). -/
def detect_signals (ema_alpha : ℚ) (baseline_yes : String → Option ℚ) (state : StreamState)
    (markets : List Market) (p : DetectParams) (now : Option ℤ) :
    Except String (List RebalanceSignal × (String → Option ℚ)) :=
  match now with
  | none => .error "TypeError: tz is an invalid keyword argument for replace"
  | some now_ts =>
    match detectLoop ema_alpha state p now_ts baseline_yes markets with
    | .error e => .error e
    | .ok (results, baselines) => .ok (results.insertionSort signalPriority, baselines)

/-- The emitted signal list of a `detect_signals` outcome, `none` on a raise;
the baseline map (a function) is projected away so that concrete outcomes are
decidable. -/
def sigList (r : Except String (List RebalanceSignal × (String → Option ℚ))) :
    Option (List RebalanceSignal) :=
  match r with
  | .ok (sigs, _) => some sigs
  | .error _ => none

/-- Concrete polymarket market used by the C4 inputs. -/
def mkt1 : Market := ⟨.polymarket, "m1", "Test market", some "c1", some "y1", some "n1"⟩

/-- Concrete stream state: book around 0.5 for token y1, one trade of
notional 1000 at time 100 for condition c1 (C4 counterexample input). -/
def state1 : StreamState :=
  ⟨fun t => if t = "y1" then some ⟨[⟨49/100, 100⟩], [⟨51/100, 100⟩]⟩ else none,
   fun c => if c = "c1" then [⟨"c1", "y1", "BUY", 2000, 1/2, 1000, 100, "Test market"⟩] else []⟩

/-- Concrete stream state: book around 0.8 for token y1, one trade of
notional 1200 at time 101 for condition c1 (C4 witness input). -/
def state2 : StreamState :=
  ⟨fun t => if t = "y1" then some ⟨[⟨79/100, 100⟩], [⟨81/100, 100⟩]⟩ else none,
   fun c => if c = "c1" then [⟨"c1", "y1", "BUY", 2400, 1/2, 1200, 101, "Test market"⟩] else []⟩

end Rebalance

/-! ## Arbitrage scanner (`services/scanner.py`) -/

/-- `MatchedMarket` from `types.py` (the matcher always sets the similarity). -/
structure MatchedMarket where
  polymarket : Market
  opinion : Market
  similarity : ℚ
deriving DecidableEq, Repr

/-- `ArbOpportunity` from `types.py` (the formatted `price_breakdown` string
is presentation text and is not modelled). -/
structure ArbOpportunity where
  pair : MatchedMarket
  route : String
  cost : ℚ
  profit_percent : ℚ
  size : ℚ
  max_size : ℚ
deriving DecidableEq, Repr

namespace Scanner

/-- The configuration values read by `scan_once` from the shared settings. -/
structure ScanSettings where
  default_quote_size : ℚ
  min_trade_size : ℚ
  min_profit_percent : ℚ
  max_slippage_bps : ℚ
deriving Repr

/-- One matched pair together with the four leg books `scan_once` evaluates.
The book fetches themselves (local feed state first, REST fallback when both
sides of the feed book are empty, and the Opinion venue always via its
client) are awaited I/O; the scan body is modelled on the resolved books. -/
structure PairBooks where
  pair : MatchedMarket
  pm_yes_book : OrderBook
  pm_no_book : OrderBook
  op_yes_book : OrderBook
  op_no_book : OrderBook

/-- The `PM_NO + OP_YES` opportunity record appended by `scan_once` when the
first route's gates pass. -/
def oppNoYes (s : ScanSettings) (pb : PairBooks) : ArbOpportunity :=
  let pm_no_fill := Pricing.compute_fill pb.pm_no_book .buy s.default_quote_size
  let op_yes_fill := Pricing.compute_fill pb.op_yes_book .buy s.default_quote_size
  let cost_no_yes := pm_no_fill.average_price + op_yes_fill.average_price
  ⟨pb.pair, "PM_NO + OP_YES", cost_no_yes, (1 - cost_no_yes) * 100,
   min pm_no_fill.filled_size op_yes_fill.filled_size,
   min pm_no_fill.filled_size op_yes_fill.filled_size⟩

/-- The `PM_YES + OP_NO` opportunity record appended by `scan_once` when the
second route's gates pass. -/
def oppYesNo (s : ScanSettings) (pb : PairBooks) : ArbOpportunity :=
  let pm_yes_fill := Pricing.compute_fill pb.pm_yes_book .buy s.default_quote_size
  let op_no_fill := Pricing.compute_fill pb.op_no_book .buy s.default_quote_size
  let cost_yes_no := pm_yes_fill.average_price + op_no_fill.average_price
  ⟨pb.pair, "PM_YES + OP_NO", cost_yes_no, (1 - cost_yes_no) * 100,
   min pm_yes_fill.filled_size op_no_fill.filled_size,
   min pm_yes_fill.filled_size op_no_fill.filled_size⟩

/-- The loop body of `scan_once` for one matched pair: evaluates both
complementary routes and appends an opportunity for each route whose gates
(size, summed cost, profit and both slippage checks) all pass. -/
def routeOpps (s : ScanSettings) (pb : PairBooks) : List ArbOpportunity :=
  let pm_no_best := Pricing.best_price pb.pm_no_book .buy
  let op_yes_best := Pricing.best_price pb.op_yes_book .buy
  let pm_no_fill := Pricing.compute_fill pb.pm_no_book .buy s.default_quote_size
  let op_yes_fill := Pricing.compute_fill pb.op_yes_book .buy s.default_quote_size
  let size_no_yes := min pm_no_fill.filled_size op_yes_fill.filled_size
  let cost_no_yes := pm_no_fill.average_price + op_yes_fill.average_price
  let first :=
    if size_no_yes ≥ s.min_trade_size ∧ cost_no_yes < 1
        ∧ (1 - cost_no_yes) * 100 ≥ s.min_profit_percent
        ∧ Pricing.clamp_slippage pm_no_best pm_no_fill.average_price s.max_slippage_bps = true
        ∧ Pricing.clamp_slippage op_yes_best op_yes_fill.average_price s.max_slippage_bps = true
    then [oppNoYes s pb] else []
  let pm_yes_best := Pricing.best_price pb.pm_yes_book .buy
  let op_no_best := Pricing.best_price pb.op_no_book .buy
  let pm_yes_fill := Pricing.compute_fill pb.pm_yes_book .buy s.default_quote_size
  let op_no_fill := Pricing.compute_fill pb.op_no_book .buy s.default_quote_size
  let size_yes_no := min pm_yes_fill.filled_size op_no_fill.filled_size
  let cost_yes_no := pm_yes_fill.average_price + op_no_fill.average_price
  let second :=
    if size_yes_no ≥ s.min_trade_size ∧ cost_yes_no < 1
        ∧ (1 - cost_yes_no) * 100 ≥ s.min_profit_percent
        ∧ Pricing.clamp_slippage pm_yes_best pm_yes_fill.average_price s.max_slippage_bps = true
        ∧ Pricing.clamp_slippage op_no_best op_no_fill.average_price s.max_slippage_bps = true
    then [oppYesNo s pb] else []
  first ++ second

/-- The descending-profit order of the final `sorted(..., reverse=True)`. -/
def profitDesc (a b : ArbOpportunity) : Prop :=
  b.profit_percent ≤ a.profit_percent

instance : DecidableRel profitDesc := fun a b => by
  unfold profitDesc
  infer_instance

instance : IsTotal ArbOpportunity profitDesc :=
  ⟨fun a b => le_total b.profit_percent a.profit_percent⟩

instance : IsTrans ArbOpportunity profitDesc :=
  ⟨fun _ _ _ h1 h2 => le_trans h2 h1⟩

/-- `scan_once` from `services/scanner.py`, on the resolved pair books:
collect both routes' accepted opportunities over all matched pairs and sort
them descending by profit percent. -/
def scan_once (s : ScanSettings) (pairs : List PairBooks) : List ArbOpportunity :=
  ((pairs.map (routeOpps s)).flatten).insertionSort profitDesc

/-- Concrete opinion-side market for the C1 witness. -/
def opMkt : Market := ⟨.opinion, "o1", "Test market", none, none, none⟩

/-- Concrete settings for the C1 witness: quote size 10, min size 5, min
profit 5 percent, 100 bps slippage. -/
def s0 : ScanSettings := ⟨10, 5, 5, 100⟩

/-- Concrete pair books for the C1 witness: buying PM NO at 0.4 and OP YES at
0.5 costs 0.9 < 1. -/
def pb0 : PairBooks :=
  ⟨⟨Rebalance.mkt1, opMkt, 3/5⟩,
   ⟨[], [⟨3/5, 50⟩]⟩,
   ⟨[], [⟨2/5, 50⟩]⟩,
   ⟨[], [⟨1/2, 50⟩]⟩,
   ⟨[], [⟨7/10, 50⟩]⟩⟩

end Scanner

/-! ## Cross-venue matcher (`services/matcher.py`) -/

namespace Matcher

/-- The similarity of two markets as computed by `match_markets`:
`difflib.SequenceMatcher(a=pm.title.lower(), b=op.title.lower()).ratio()`.
The `SequenceMatcher` similarity itself is a library function external to the
repository and is abstracted as the function parameter `rt`; the
case-insensitivity (both titles lowercased first) is part of the source. -/
def sim (rt : String → String → ℚ) (pm op : Market) : ℚ :=
  rt pm.title.toLower op.title.toLower

/-- The inner loop of `match_markets`: scan the venue-B markets, skipping the
already-used ones, keeping the best candidate so far; a candidate replaces the
current best only when its similarity is at least the threshold and strictly
greater than the current best (so the first maximum encountered is kept). -/
def bestScan (sim1 : Market → ℚ) (threshold : ℚ) (used : List String) :
    List Market → Option (ℚ × Market) → Option (ℚ × Market)
  | [], best => best
  | op :: rest, best =>
    if op.market_id ∈ used then bestScan sim1 threshold used rest best
    else
      let r := sim1 op
      let better :=
        match best with
        | none => decide (r ≥ threshold)
        | some (b, _) => decide (r ≥ threshold) && decide (r > b)
      bestScan sim1 threshold used rest (if better then some (r, op) else best)

/-- The outer loop of `match_markets`, threading the set of used venue-B
market ids. -/
def matchLoop (rt : String → String → ℚ) (opinion_markets : List Market) (threshold : ℚ) :
    List Market → List String → List MatchedMarket
  | [], _ => []
  | pm :: rest, used =>
    match bestScan (fun op => sim rt pm op) threshold used opinion_markets none with
    | none => matchLoop rt opinion_markets threshold rest used
    | some (r, op) =>
      ⟨pm, op, r⟩ :: matchLoop rt opinion_markets threshold rest (op.market_id :: used)

/-- `match_markets` from `services/matcher.py`: greedy one-to-one matching of
markets across the two venues by title similarity, in venue-A iteration
order. -/
def match_markets (rt : String → String → ℚ) (polymarkets opinion_markets : List Market)
    (threshold : ℚ) : List MatchedMarket :=
  matchLoop rt opinion_markets threshold polymarkets []

/-- Declarative greedy-matching policy, stated from the claim: each venue-A
market is either skipped, when no unused venue-B market reaches the
threshold, or paired with an unused venue-B market attaining the maximum
similarity among the unused ones, where the first maximum encountered (in
venue-B order) is kept on ties; a picked venue-B id becomes used for the rest
of the scan, and pairs appear in venue-A iteration order. -/
inductive Greedy (rt : String → String → ℚ) (threshold : ℚ) (ops : List Market) :
    List String → List Market → List MatchedMarket → Prop
  | nil (used : List String) : Greedy rt threshold ops used [] []
  | skip (used : List String) (pm : Market) (rest : List Market) (res : List MatchedMarket) :
      (∀ op ∈ ops, op.market_id ∉ used → sim rt pm op < threshold) →
      Greedy rt threshold ops used rest res →
      Greedy rt threshold ops used (pm :: rest) res
  | pick (used : List String) (pm : Market) (rest : List Market) (res : List MatchedMarket)
      (op : Market) (r : ℚ) (l1 l2 : List Market) :
      ops = l1 ++ op :: l2 →
      op.market_id ∉ used →
      r = sim rt pm op →
      threshold ≤ r →
      (∀ op2 ∈ ops, op2.market_id ∉ used → sim rt pm op2 ≤ r) →
      (∀ op2 ∈ l1, op2.market_id ∉ used → sim rt pm op2 < r) →
      Greedy rt threshold ops (op.market_id :: used) rest res →
      Greedy rt threshold ops used (pm :: rest) (⟨pm, op, r⟩ :: res)

/-- An exact-match similarity function for the C9 witness. -/
def rt0 : String → String → ℚ := fun a b => if a = b then 1 else 0

/-- Concrete venue-A market for the C9 witness. -/
def mktA : Market := ⟨.polymarket, "m1", "BTC above 100k", none, none, none⟩

/-- Concrete venue-B market for the C9 witness, same title up to case. -/
def mktB : Market := ⟨.opinion, "o1", "btc ABOVE 100k", none, none, none⟩

end Matcher

/-! ## Probability engine (`services/barrier_pricing.py`, `services/hedge_scanner.py`) -/

namespace Prob

open scoped Classical

/-- The Gauss error function `math.erf`, as the standard integral
`(2 / sqrt pi) * int_0^x exp(-t^2) dt`. -/
noncomputable def erf (x : ℝ) : ℝ :=
  2 / Real.sqrt Real.pi * ∫ t in (0:ℝ)..x, Real.exp (-t ^ 2)

/-- `norm_cdf` of `barrier_pricing.py` and `_norm_cdf` of `hedge_scanner.py`:
`0.5 * (1.0 + math.erf(x / math.sqrt(2.0)))`. -/
noncomputable def norm_cdf (x : ℝ) : ℝ :=
  0.5 * (1 + erf (x / Real.sqrt 2))

/-- `one_touch_prob` from `services/barrier_pricing.py`: reflection-principle
closed form with drift compensation, the "down" direction handled by taking
reciprocals of spot and barrier, clamped to `[0, 1]`; `None` on non-positive
spot, barrier, time or volatility. -/
noncomputable def one_touch_prob (spot barrier years vol drift : ℝ)
    (direction : String) : Option ℝ :=
  if spot ≤ 0 ∨ barrier ≤ 0 ∨ years ≤ 0 ∨ vol ≤ 0 then none
  else
    let sqrt_t := Real.sqrt years
    let s := if direction = "down" then 1 / spot else spot
    let b := if direction = "down" then 1 / barrier else barrier
    let ln_ratio := Real.log (s / b)
    let denom := vol * sqrt_t
    if denom = 0 then none
    else
      let d1 := (ln_ratio + (drift + 0.5 * vol * vol) * years) / denom
      let d2 := (ln_ratio + (drift - 0.5 * vol * vol) * years) / denom
      let kappa := if vol > 0 then 2 * drift / (vol * vol) else 0
      let term_reflect := (b / s) ^ kappa
      let prob := norm_cdf (-d2) + term_reflect * norm_cdf d1
      some (max 0 (min 1 prob))

/-- `no_touch_prob` from `services/barrier_pricing.py`: the complement of the
one-touch probability, floored at 0; `None` exactly when `one_touch_prob`
is. -/
noncomputable def no_touch_prob (spot barrier years vol drift : ℝ)
    (direction : String) : Option ℝ :=
  match one_touch_prob spot barrier years vol drift direction with
  | none => none
  | some touch => some (max 0 (1 - touch))

/-- `_implied_prob_above` from `services/hedge_scanner.py`.  The ISO expiry
string goes through `_parse_expiry`; the parse result is modelled as
`Option ℝ` (a UTC timestamp in seconds, `none` when parsing fails), and `now`
as a timestamp, so `seconds = expiry - now`. -/
noncomputable def implied_prob_above (spot strike : ℝ) (expiry : Option ℝ) (now : ℝ)
    (vol : ℝ) : Option ℝ × ℝ :=
  match expiry with
  | none => (none, 0)
  | some e =>
    if spot ≤ 0 ∨ strike ≤ 0 then (none, 0)
    else
      let seconds := e - now
      if seconds ≤ 0 then (none, 0)
      else
        let years := seconds / (365 * 24 * 3600)
        let sigma := max vol (1 / 1000000)
        let denom := sigma * Real.sqrt years
        if denom ≤ 0 then (none, years)
        else
          let d2 := (Real.log (spot / strike) - 0.5 * sigma * sigma * years) / denom
          (some (norm_cdf d2), years)

/-- `_implied_touch_prob` from `services/hedge_scanner.py`: as
`implied_prob_above` but dispatching to the barrier model, with the
minimum-log-gap filter (in units of `sigma * sqrt(T)`). -/
noncomputable def implied_touch_prob (spot barrier : ℝ) (expiry : Option ℝ) (now : ℝ)
    (vol drift : ℝ) (direction : String) (min_gap_sigma : ℝ) (want_no_touch : Bool) :
    Option ℝ × ℝ :=
  match expiry with
  | none => (none, 0)
  | some e =>
    if spot ≤ 0 ∨ barrier ≤ 0 then (none, 0)
    else
      let seconds := e - now
      if seconds ≤ 0 then (none, 0)
      else
        let years := seconds / (365 * 24 * 3600)
        let sigma := max vol (1 / 1000000)
        let gap := |Real.log (spot / barrier)|
        if gap < min_gap_sigma * sigma * Real.sqrt years then (none, years)
        else if want_no_touch then
          (no_touch_prob spot barrier years sigma drift direction, years)
        else
          (one_touch_prob spot barrier years sigma drift direction, years)

end Prob

/-! ## Hedge scanner control flow (`services/hedge_scanner.py`) -/

namespace Hedge

open scoped Classical

/-- `HedgeMarketConfig` from `types.py` (expiry already through
`_parse_expiry`; the realized-vol timeframe and lookback overrides are only
read on the realized-vol path). -/
structure HedgeMapping where
  market_id : String
  underlying_symbol : String
  strike : ℝ
  expiry : Option ℝ
  yes_on_above : Bool
  est_vol : Option ℝ
  payoff_type : String
  barrier : String
  drift : ℝ
  vol_timeframe : Option String
  vol_lookback_days : Option ℤ

/-- The awaited upstream data of one scan cycle: which market ids the listing
returned, the venue quotes, the mark price per symbol (`none` when the fetch
raises, which skips that mapping only) and the funding rate. -/
structure HedgeEnv where
  markets : List String
  quote_yes : String → ℝ
  quote_no : String → ℝ
  spot : String → Option ℝ
  funding : String → Option ℝ

/-- `HedgeOpportunity` from `types.py` (market and expiry carried by id; the
advisory note is modelled as the boolean `years < 2/365` that decides it). -/
structure HedgeOpportunity where
  market_id : String
  underlying_symbol : String
  pm_yes : ℝ
  pm_no : ℝ
  implied_yes : ℝ
  edge_percent : ℝ
  underlying_price : ℝ
  strike : ℝ
  funding_rate : Option ℝ
  short_expiry_note : Bool
  prob_source : String
  barrier : Option String

/-- One iteration of the mapping loop of `scan_hedged_opportunities`.

When `use_realized_vol` is true the source evaluates
`if cache_key not in vol_cache:` — but the module-level name `vol_cache` is
never bound: its only assignment, `vol_cache = {}` at
`services/hedge_scanner.py:299`, sits after the `return` statement inside
`_implied_touch_prob` and is unreachable.  The lookup therefore raises
`NameError` for the first mapping that reaches the volatility-selection path,
modelled as the error case. -/
noncomputable def scanFinish (env : HedgeEnv) (min_edge_percent : Option ℝ)
    (mapping : HedgeMapping) (pm_yes pm_no spot : ℝ)
    (pr : (Option ℝ × ℝ) × String) : Option HedgeOpportunity :=
  match pr.1.1 with
  | none => none
  | some prob_above =>
    let implied_yes := if mapping.yes_on_above then prob_above else 1 - prob_above
    let edge_pct := (implied_yes - pm_yes) * 100
    if (match min_edge_percent with | some m => |edge_pct| < m | none => False) then none
    else
      some ⟨mapping.market_id, mapping.underlying_symbol, pm_yes, pm_no,
        implied_yes, edge_pct, spot, mapping.strike,
        env.funding mapping.underlying_symbol,
        (if pr.1.2 < 2 / 365 then true else false), pr.2,
        (if mapping.payoff_type = "touch" ∨ mapping.payoff_type = "no_touch"
          then some mapping.barrier else none)⟩

noncomputable def scanStep (env : HedgeEnv) (now : ℝ) (default_vol min_gap_sigma : ℝ)
    (use_realized_vol : Bool) (min_edge_percent : Option ℝ) (mapping : HedgeMapping) :
    Except String (Option HedgeOpportunity) :=
  if mapping.market_id ∉ env.markets then .ok none
  else
    let pm_yes := env.quote_yes mapping.market_id
    let pm_no := env.quote_no mapping.market_id
    match env.spot mapping.underlying_symbol with
    | none => .ok none
    | some spot =>
      let vol :=
        match mapping.est_vol with
        | none => default_vol
        | some v => if v = 0 then default_vol else v
      if use_realized_vol then .error "NameError: name vol_cache is not defined"
      else
        let pr :=
          if mapping.payoff_type = "touch" then
            (Prob.implied_touch_prob spot mapping.strike mapping.expiry now vol mapping.drift
              mapping.barrier min_gap_sigma false, "touch")
          else if mapping.payoff_type = "no_touch" then
            (Prob.implied_touch_prob spot mapping.strike mapping.expiry now vol mapping.drift
              mapping.barrier min_gap_sigma true, "no_touch")
          else
            (Prob.implied_prob_above spot mapping.strike mapping.expiry now vol, "digital")
        .ok (scanFinish env min_edge_percent mapping pm_yes pm_no spot pr)

/-- The mapping loop: first raised exception aborts the scan (nothing catches
the `NameError`), skipped mappings contribute nothing. -/
noncomputable def scanLoop (env : HedgeEnv) (now : ℝ) (default_vol min_gap_sigma : ℝ)
    (use_realized_vol : Bool) (min_edge_percent : Option ℝ) :
    List HedgeMapping → Except String (List HedgeOpportunity)
  | [] => .ok []
  | mapping :: rest =>
    match scanStep env now default_vol min_gap_sigma use_realized_vol min_edge_percent
        mapping with
    | .error e => .error e
    | .ok none => scanLoop env now default_vol min_gap_sigma use_realized_vol
        min_edge_percent rest
    | .ok (some o) =>
      match scanLoop env now default_vol min_gap_sigma use_realized_vol
          min_edge_percent rest with
      | .error e => .error e
      | .ok l => .ok (o :: l)

/-- The descending-absolute-edge order of the final sort. -/
def edgeDesc (a b : HedgeOpportunity) : Prop :=
  |b.edge_percent| ≤ |a.edge_percent|

noncomputable instance : DecidableRel edgeDesc := fun _ _ => Classical.propDecidable _

/-- `scan_hedged_opportunities` from `services/hedge_scanner.py`, on the
resolved upstream data: run the mapping loop and sort the survivors
descending by absolute edge. -/
noncomputable def scan_hedged_opportunities (env : HedgeEnv) (now : ℝ)
    (default_vol min_gap_sigma : ℝ) (use_realized_vol : Bool)
    (min_edge_percent : Option ℝ) (mappings : List HedgeMapping) :
    Except String (List HedgeOpportunity) :=
  match scanLoop env now default_vol min_gap_sigma use_realized_vol min_edge_percent
      mappings with
  | .error e => .error e
  | .ok results => .ok (results.insertionSort edgeDesc)

/-- Concrete environment for the C3 failing input: market m1 listed, quotes
0.5/0.5, mark price 100 for every symbol, no funding data. -/
noncomputable def btcEnv : HedgeEnv :=
  ⟨["m1"], fun _ => 1/2, fun _ => 1/2, fun _ => some 100, fun _ => none⟩

/-- Concrete mapping for the C3 failing input: a digital-payoff mapping with
no static volatility estimate. -/
noncomputable def btcMapping : HedgeMapping :=
  ⟨"m1", "BTC/USDT:USDT", 150, some 3153600, true, none, "digital", "up", 0, none, none⟩

end Hedge

/-! ## Theorems -/

namespace Pricing

theorem fillWalk_nil (r : ℚ) : fillWalk [] r = (0, 0) := rfl

/-- With a nonpositive target and nonnegative level sizes, the walk fills a
nonpositive quantity (the first take is the whole nonpositive remainder). -/
theorem fillWalk_filled_nonpos (levels : List OrderBookLevel) (r : ℚ) (hr : r ≤ 0)
    (hsz : ∀ l ∈ levels, 0 ≤ l.size) : (fillWalk levels r).2 ≤ 0 := by
  cases levels with
  | nil => simp [fillWalk]
  | cons level rest =>
    have hsize : 0 ≤ level.size := hsz level (by simp)
    have htake : min level.size r = r := min_eq_right (le_trans hr hsize)
    simp only [fillWalk, htake]
    have : r - r ≤ 0 := by simp
    simp [this]
    exact hr

/-- Core bound: for a positive remaining target and nonnegative sizes, the
accumulated notional is bounded by the filled quantity scaled by any uniform
price bounds on the levels. -/
theorem fillWalk_bounds (lo hi : ℚ) :
    ∀ (levels : List OrderBookLevel) (r : ℚ), 0 < r →
      (∀ l ∈ levels, 0 ≤ l.size) →
      (∀ l ∈ levels, lo ≤ l.price ∧ l.price ≤ hi) →
      0 ≤ (fillWalk levels r).2 ∧
        lo * (fillWalk levels r).2 ≤ (fillWalk levels r).1 ∧
        (fillWalk levels r).1 ≤ hi * (fillWalk levels r).2 := by
  intro levels
  induction levels with
  | nil => intro r _ _ _; simp [fillWalk]
  | cons level rest ih =>
    intro r hr hsz hpr
    have hsize : 0 ≤ level.size := (hsz level (by simp))
    have hprice : lo ≤ level.price ∧ level.price ≤ hi := hpr level (by simp)
    have htake : 0 ≤ min level.size r := le_min hsize (le_of_lt hr)
    simp only [fillWalk]
    by_cases hrem : r - min level.size r ≤ 0
    · simp only [hrem, if_pos]
      refine ⟨htake, ?_, ?_⟩
      · calc lo * min level.size r ≤ level.price * min level.size r :=
              mul_le_mul_of_nonneg_right hprice.1 htake
          _ = min level.size r * level.price := mul_comm _ _
      · calc min level.size r * level.price = level.price * min level.size r := by ring
          _ ≤ hi * min level.size r := mul_le_mul_of_nonneg_right hprice.2 htake
    · simp only [hrem, if_neg, not_false_iff]
      have hrem' : 0 < r - min level.size r := lt_of_not_ge hrem
      obtain ⟨h1, h2, h3⟩ := ih (r - min level.size r) hrem'
        (fun l hl => hsz l (by simp [hl]))
        (fun l hl => hpr l (by simp [hl]))
      refine ⟨by positivity, ?_, ?_⟩
      · have : lo * min level.size r ≤ min level.size r * level.price := by
          calc lo * min level.size r ≤ level.price * min level.size r :=
                mul_le_mul_of_nonneg_right hprice.1 htake
            _ = min level.size r * level.price := by ring
        calc lo * (min level.size r + (fillWalk rest (r - min level.size r)).2)
            = lo * min level.size r + lo * (fillWalk rest (r - min level.size r)).2 := by ring
          _ ≤ min level.size r * level.price + (fillWalk rest (r - min level.size r)).1 :=
              add_le_add this h2
      · have : min level.size r * level.price ≤ hi * min level.size r := by
          calc min level.size r * level.price = level.price * min level.size r := by ring
            _ ≤ hi * min level.size r := mul_le_mul_of_nonneg_right hprice.2 htake
        calc min level.size r * level.price + (fillWalk rest (r - min level.size r)).1
            ≤ hi * min level.size r + hi * (fillWalk rest (r - min level.size r)).2 :=
              add_le_add this h3
          _ = hi * (min level.size r + (fillWalk rest (r - min level.size r)).2) := by ring

/-- Any nonempty level list has a member of minimal price. -/
theorem exists_price_min (x : OrderBookLevel) (xs : List OrderBookLevel) :
    ∃ m ∈ x :: xs, ∀ l ∈ x :: xs, m.price ≤ l.price := by
  induction xs generalizing x with
  | nil => exact ⟨x, by simp, by simp⟩
  | cons y ys ih =>
    obtain ⟨m, hm, hle⟩ := ih y
    by_cases h : x.price ≤ m.price
    · refine ⟨x, by simp, ?_⟩
      intro l hl
      rcases List.mem_cons.mp hl with h1 | h1
      · simp [h1]
      · exact le_trans h (hle l h1)
    · refine ⟨m, List.mem_cons_of_mem x hm, ?_⟩
      intro l hl
      rcases List.mem_cons.mp hl with h1 | h1
      · subst h1; exact le_of_lt (lt_of_not_ge h)
      · exact hle l h1

/-- Any nonempty level list has a member of maximal price. -/
theorem exists_price_max (x : OrderBookLevel) (xs : List OrderBookLevel) :
    ∃ m ∈ x :: xs, ∀ l ∈ x :: xs, l.price ≤ m.price := by
  induction xs generalizing x with
  | nil => exact ⟨x, by simp, by simp⟩
  | cons y ys ih =>
    obtain ⟨m, hm, hle⟩ := ih y
    by_cases h : m.price ≤ x.price
    · refine ⟨x, by simp, ?_⟩
      intro l hl
      rcases List.mem_cons.mp hl with h1 | h1
      · simp [h1]
      · exact le_trans (hle l h1) h
    · refine ⟨m, List.mem_cons_of_mem x hm, ?_⟩
      intro l hl
      rcases List.mem_cons.mp hl with h1 | h1
      · subst h1; exact le_of_lt (lt_of_not_ge h)
      · exact hle l h1

/-- C7 (amended): whenever `compute_fill` fills a nonzero size — any positive
target against a side with some positive depth, and also any negative target
against a nonempty side, where the walk takes the whole negative remainder at
the first level so the average equals that level's price — and all level
sizes are nonnegative, the volume-weighted average price lies between the
lowest and the highest price present on the relevant side.  When zero size is
filled (a zero target, a positive target against an all-zero-size side, or an
empty side) `compute_fill` returns the sentinel average of 1 instead, which
can lie outside the range. -/
theorem compute_fill_avg_between (orderbook : OrderBook) (side : Side) (size : ℚ)
    (hsz : ∀ l ∈ sideLevels orderbook side, 0 ≤ l.size)
    (hfill : (compute_fill orderbook side size).filled_size ≠ 0) :
    ∃ lo ∈ sideLevels orderbook side, ∃ hi ∈ sideLevels orderbook side,
      lo.price ≤ (compute_fill orderbook side size).average_price ∧
      (compute_fill orderbook side size).average_price ≤ hi.price := by
  by_cases hf : (fillWalk (sideLevels orderbook side) size).2 = 0
  · exfalso
    simp [compute_fill, hf] at hfill
  · have hres : compute_fill orderbook side size =
        ⟨(fillWalk (sideLevels orderbook side) size).1 /
          (fillWalk (sideLevels orderbook side) size).2,
         (fillWalk (sideLevels orderbook side) size).2,
         (fillWalk (sideLevels orderbook side) size).1⟩ := by
      simp [compute_fill, hf]
    cases hlev : sideLevels orderbook side with
    | nil =>
      exfalso
      rw [hlev] at hf
      simp [fillWalk] at hf
    | cons x xs =>
      rw [hlev] at hres hf
      rcases le_or_lt size 0 with hs | hs
      · have hxsz : 0 ≤ x.size := hsz x (by rw [hlev]; exact List.mem_cons_self x xs)
        have htake : min x.size size = size := min_eq_right (le_trans hs hxsz)
        have hwalk : fillWalk (x :: xs) size = (size * x.price, size) := by
          simp [fillWalk, htake]
        have hsz0 : size ≠ 0 := by
          rw [hwalk] at hf
          exact hf
        refine ⟨x, List.mem_cons_self x xs, x, List.mem_cons_self x xs, ?_, ?_⟩
        · rw [hres, hwalk]
          simp only [mul_div_cancel_left₀ x.price hsz0]
          exact le_refl _
        · rw [hres, hwalk]
          simp only [mul_div_cancel_left₀ x.price hsz0]
          exact le_refl _
      · obtain ⟨mlo, hmlo, hlo⟩ := exists_price_min x xs
        obtain ⟨mhi, hmhi, hhi⟩ := exists_price_max x xs
        obtain ⟨h0, h1, h2⟩ := fillWalk_bounds mlo.price mhi.price (x :: xs) size hs
          (by rw [hlev] at hsz; exact hsz)
          (fun l hl => ⟨hlo l hl, hhi l hl⟩)
        have hfpos : 0 < (fillWalk (x :: xs) size).2 := lt_of_le_of_ne h0 (Ne.symm hf)
        refine ⟨mlo, hmlo, mhi, hmhi, ?_, ?_⟩
        · rw [hres]
          exact (le_div_iff₀ hfpos).mpr h1
        · rw [hres]
          exact (div_le_iff₀ hfpos).mpr h2

/-- C7 counterexample against the claim as stated: for the one-level ask book
`oneAskBook` and target size 0, `compute_fill` returns the sentinel average
price 1, which does not lie between the best and the worst price present
(both 1/2). -/
theorem compute_fill_avg_between_cex :
    Pricing.sideLevels Pricing.oneAskBook Side.buy ≠ [] ∧
    ¬ ∃ lo ∈ Pricing.sideLevels Pricing.oneAskBook Side.buy,
        ∃ hi ∈ Pricing.sideLevels Pricing.oneAskBook Side.buy,
          lo.price ≤ (Pricing.compute_fill Pricing.oneAskBook Side.buy 0).average_price ∧
          (Pricing.compute_fill Pricing.oneAskBook Side.buy 0).average_price ≤ hi.price := by
  with_unfolding_all decide

/-- C7 witness: the amended theorem applied to the concrete one-ask book with
target size 5 and with target size -5 (the negative-target fill, size -5 at
average price 1/2). -/
theorem compute_fill_avg_between_witness :
    (∃ lo ∈ Pricing.sideLevels Pricing.oneAskBook Side.buy,
      ∃ hi ∈ Pricing.sideLevels Pricing.oneAskBook Side.buy,
        lo.price ≤ (Pricing.compute_fill Pricing.oneAskBook Side.buy 5).average_price ∧
        (Pricing.compute_fill Pricing.oneAskBook Side.buy 5).average_price ≤ hi.price)
    ∧ ∃ lo ∈ Pricing.sideLevels Pricing.oneAskBook Side.buy,
        ∃ hi ∈ Pricing.sideLevels Pricing.oneAskBook Side.buy,
          lo.price ≤ (Pricing.compute_fill Pricing.oneAskBook Side.buy (-5)).average_price ∧
          (Pricing.compute_fill Pricing.oneAskBook Side.buy (-5)).average_price ≤ hi.price :=
  ⟨compute_fill_avg_between Pricing.oneAskBook Side.buy 5 (by with_unfolding_all decide)
      (by with_unfolding_all decide),
   compute_fill_avg_between Pricing.oneAskBook Side.buy (-5) (by with_unfolding_all decide)
      (by with_unfolding_all decide)⟩

/-- C8: with an empty relevant side (and in general whenever the walk filled
zero size) `compute_fill` returns average price 1, filled size 0 and notional
0; and `best_price` returns 1 on an empty relevant side, otherwise the price
of the single best (first) opposing level. -/
theorem compute_fill_empty_and_best_price (orderbook : OrderBook) (side : Side) (size : ℚ) :
    (sideLevels orderbook side = [] → compute_fill orderbook side size = ⟨1, 0, 0⟩)
    ∧ ((compute_fill orderbook side size).filled_size = 0 →
        compute_fill orderbook side size = ⟨1, 0, 0⟩)
    ∧ (sideLevels orderbook side = [] → best_price orderbook side = 1)
    ∧ (∀ level rest, sideLevels orderbook side = level :: rest →
        best_price orderbook side = level.price) := by
  refine ⟨?_, ?_, ?_, ?_⟩
  · intro h
    simp [compute_fill, h, fillWalk]
  · intro h
    by_cases hf : (fillWalk (sideLevels orderbook side) size).2 = 0
    · simp [compute_fill, hf]
    · exfalso
      simp [compute_fill, hf] at h
  · intro h
    cases side with
    | buy =>
      have : orderbook.asks = [] := h
      simp [best_price, OrderBook.best_ask, this]
    | sell =>
      have : orderbook.bids = [] := h
      simp [best_price, OrderBook.best_bid, this]
  · intro level rest h
    cases side with
    | buy =>
      have : orderbook.asks = level :: rest := h
      simp [best_price, OrderBook.best_ask, this]
    | sell =>
      have : orderbook.bids = level :: rest := h
      simp [best_price, OrderBook.best_bid, this]

/-- C8 witness: the theorem applied to a concrete empty book and to the
concrete one-ask book. -/
theorem compute_fill_empty_and_best_price_witness :
    Pricing.compute_fill ⟨[], []⟩ Side.buy 5 = ⟨1, 0, 0⟩ ∧
    Pricing.best_price ⟨[], []⟩ Side.buy = 1 ∧
    Pricing.best_price Pricing.oneAskBook Side.buy = 1/2 :=
  ⟨(compute_fill_empty_and_best_price ⟨[], []⟩ Side.buy 5).1 rfl,
   (compute_fill_empty_and_best_price ⟨[], []⟩ Side.buy 5).2.2.1 rfl,
   (compute_fill_empty_and_best_price Pricing.oneAskBook Side.buy 5).2.2.2 ⟨1/2, 10⟩ [] rfl⟩

end Pricing

namespace WS

/-- C2 counterexample against the claim as stated: a message whose `price`
field is missing is NOT ignored — `float(data.get("price") or 0.0)` coerces the
missing price to 0.0 and a trade is still appended, so the ring buffer
changes. -/
theorem append_last_trade_cex :
    missingPriceMsg.price = RawNum.missing ∧
    append_last_trade 200 (fun _ => []) missingPriceMsg "c1"
      = [⟨"c1", "a1", "BUY", 5, 0, 0, 5, "c1"⟩] ∧
    append_last_trade 200 (fun _ => []) missingPriceMsg "c1" ≠ ([] : List TradeEvent) := by
  with_unfolding_all decide

/-- C2 (amended): `append_last_trade` leaves every ring buffer unchanged iff
one of the numeric coercions raises (an unparseable size, price or
timestamp).  For every message whose three coercions succeed, exactly one
trade is appended, to the buffer of the message's market, carrying the
coerced size, price, their product as notional and the coerced timestamp; all
other buffers are untouched.  The coercions themselves satisfy: a missing or
falsy size/price coerces to 0.0 (so a message with a missing price or size is
still appended, with that field 0 and notional 0 accordingly), a parseable
field coerces to its value, an unparseable one raises; a millisecond
timestamp coerces to seconds truncated toward zero, a missing one to 0, an
unparseable one raises.  Appending to a buffer below capacity is a plain
append of one element. -/
theorem append_last_trade_spec (cap : ℕ) (trades_by_condition : String → List TradeEvent)
    (data : LastTradeMsg) :
    ((coerceNum data.size = none ∨ coerceNum data.price = none ∨
        coerceTs data.timestamp = none) →
      append_last_trade cap trades_by_condition data = trades_by_condition)
    ∧ (∀ s p n, coerceNum data.size = some s → coerceNum data.price = some p →
        coerceTs data.timestamp = some n →
        (append_last_trade cap trades_by_condition data) data.market
            = ringAppend cap (trades_by_condition data.market)
                ⟨data.market, data.asset_id, data.side, s, p, s * p, n, data.market⟩
          ∧ ∀ c, c ≠ data.market →
              (append_last_trade cap trades_by_condition data) c = trades_by_condition c)
    ∧ (coerceNum RawNum.missing = some 0 ∧ coerceNum RawNum.falsy = some 0
        ∧ (∀ q, coerceNum (RawNum.num q) = some q)
        ∧ coerceNum RawNum.malformed = none
        ∧ coerceTs RawTs.missing = some 0
        ∧ (∀ m, coerceTs (RawTs.intval m) = some (m.tdiv 1000))
        ∧ coerceTs RawTs.malformed = none)
    ∧ (∀ (buf : List TradeEvent) (t : TradeEvent), buf.length < cap →
        ringAppend cap buf t = buf ++ [t]) := by
  refine ⟨?_, ?_, ?_, ?_⟩
  · intro h
    cases hs : coerceNum data.size with
    | none => simp [append_last_trade, hs]
    | some s =>
      cases hp : coerceNum data.price with
      | none => simp [append_last_trade, hs, hp]
      | some p =>
        cases ht : coerceTs data.timestamp with
        | none => simp [append_last_trade, hs, hp, ht]
        | some t => simp_all
  · intro s p n hs hp ht
    constructor
    · simp [append_last_trade, hs, hp, ht]
    · intro c hc
      simp [append_last_trade, hs, hp, ht, hc]
  · exact ⟨rfl, rfl, fun q => rfl, rfl, rfl, fun m => rfl, rfl⟩
  · intro buf t h
    have hz : buf.length + 1 - cap = 0 := by omega
    simp [ringAppend, hz]

/-- C2 witness: the amended theorem applied over empty buffers to the
concrete missing-size message (appended with size 0, notional 0) and to the
concrete well-formed message. -/
theorem append_last_trade_spec_witness :
    (append_last_trade 200 (fun _ => []) missingSizeMsg) "c1"
      = [⟨"c1", "a1", "SELL", 0, 1/2, 0, 5, "c1"⟩]
    ∧ (append_last_trade 200 (fun _ => []) okMsg) "c1"
      = [⟨"c1", "a1", "BUY", 4, 1/2, 2, 5, "c1"⟩] := by
  constructor
  · have h := (append_last_trade_spec 200 (fun _ => []) missingSizeMsg).2.1 0 (1/2) 5
      rfl rfl (by with_unfolding_all decide)
    refine h.1.trans ?_
    with_unfolding_all decide
  · have h := (append_last_trade_spec 200 (fun _ => []) okMsg).2.1 4 (1/2) 5
      rfl rfl (by with_unfolding_all decide)
    refine h.1.trans ?_
    with_unfolding_all decide

end WS

namespace Rebalance

/-- On an instrument whose baseline is not yet seeded, one loop iteration
never emits a signal as long as the minimum-move parameter is positive:
the seeded baseline equals the current price, so `delta = 0 < min_abs_move`. -/
theorem detectStep_fresh (ema_alpha : ℚ) (state : StreamState) (p : DetectParams)
    (now_ts : ℤ) (baseline_yes : String → Option ℚ) (market : Market)
    (hfresh : ∀ c, market.condition_id = some c → baseline_yes c = none)
    (hmove : 0 < p.min_abs_move) :
    ∃ b, detectStep ema_alpha state p now_ts baseline_yes market = .ok (none, b) := by
  by_cases hplat : market.platform ≠ Platform.polymarket
  · exact ⟨baseline_yes, by simp [detectStep, hplat]⟩
  · cases hcid : market.condition_id with
    | none => exact ⟨baseline_yes, by simp [detectStep, hplat, hcid]⟩
    | some cid =>
      by_cases hc : cid = ""
      · exact ⟨baseline_yes, by simp [detectStep, hplat, hcid, hc]⟩
      · cases hyt : market.yes_token_id with
        | none => exact ⟨baseline_yes, by simp [detectStep, hplat, hcid, hc, hyt]⟩
        | some ytok =>
          by_cases hy : ytok = ""
          · exact ⟨baseline_yes, by simp [detectStep, hplat, hcid, hc, hyt, hy]⟩
          · cases hbook : get_orderbook_for_market state market "yes" with
            | none =>
              exact ⟨baseline_yes, by simp [detectStep, hplat, hcid, hc, hyt, hy, hbook]⟩
            | some book =>
              cases hest : estimate_yes_price book with
              | none =>
                exact ⟨baseline_yes,
                  by simp [detectStep, hplat, hcid, hc, hyt, hy, hbook, hest]⟩
              | some current =>
                have hb : baseline_yes cid = none := hfresh cid hcid
                exact ⟨fun c => if c = cid then some current else baseline_yes c,
                  by simp [detectStep, hplat, hcid, hc, hyt, hy, hbook, hest,
                    update_baseline, hb, hmove]⟩

/-- On an instrument with a seeded baseline whose EMA-updated deviation,
latest-trade notional and latest-trade age all pass the gates, one loop
iteration emits exactly the expected signal. -/
theorem detectStep_emit (ema_alpha : ℚ) (state : StreamState) (p : DetectParams)
    (now_ts : ℤ) (baseline_yes : String → Option ℚ) (market : Market)
    (cid ytok : String) (book : OrderBook) (current previous baseline delta : ℚ)
    (trades : List WS.TradeEvent) (last_trade : WS.TradeEvent)
    (hplat : market.platform = Platform.polymarket)
    (hcid : market.condition_id = some cid) (hc : cid ≠ "")
    (hyt : market.yes_token_id = some ytok) (hy : ytok ≠ "")
    (hbook : get_orderbook_for_market state market "yes" = some book)
    (hest : estimate_yes_price book = some current)
    (hprev : baseline_yes cid = some previous)
    (hbase : baseline = ema_alpha * current + (1 - ema_alpha) * previous)
    (hdelta : delta = current - baseline)
    (hmove : p.min_abs_move ≤ |delta|)
    (htr : get_last_trades state cid 50 = trades)
    (hlen : p.min_trades ≤ trades.length)
    (hlast : trades.getLast? = some last_trade)
    (hage0 : 0 ≤ now_ts - last_trade.timestamp)
    (hage1 : now_ts - last_trade.timestamp ≤ p.max_age_seconds)
    (hnot : p.min_notional ≤ last_trade.notional) :
    detectStep ema_alpha state p now_ts baseline_yes market
      = .ok (some ⟨market, if delta > 0 then "short_yes" else "short_no",
              current, baseline, delta, last_trade.notional, p.max_age_seconds⟩,
             fun c => if c = cid then some baseline else baseline_yes c) := by
  have hnm : ¬ (|delta| < p.min_abs_move) := not_lt.mpr hmove
  have hnl : ¬ (trades.length < p.min_trades) := not_lt.mpr hlen
  have hna : ¬ (now_ts - last_trade.timestamp < 0 ∨
      now_ts - last_trade.timestamp > p.max_age_seconds) := by
    push_neg
    omega
  have hnn : ¬ (last_trade.notional < p.min_notional) := not_lt.mpr hnot
  have hupd : update_baseline ema_alpha baseline_yes cid current
      = (baseline, fun c => if c = cid then some baseline else baseline_yes c) := by
    simp [update_baseline, hprev, hbase]
  simp only [detectStep, hplat, hcid, hyt, hbook, hest, hupd, htr, hlast, ← hdelta]
  simp [hc, hy, hnm, hnl, hna, hnn]
  omega

/-- C10: for every monitor state, stream state, market list and parameter
setting, calling `detect_signals` with the default `now = None` raises a
`TypeError` (the source calls `datetime.replace` with the invalid keyword
`tz`) before any market is examined, and a signal list is only ever returned
for a caller-supplied non-`None` `now`. -/
theorem detect_signals_default_now_raises (ema_alpha : ℚ) (baseline_yes : String → Option ℚ)
    (state : StreamState) (markets : List Market) (p : DetectParams) :
    detect_signals ema_alpha baseline_yes state markets p none
      = .error "TypeError: tz is an invalid keyword argument for replace"
    ∧ ∀ (now : Option ℤ) out,
        detect_signals ema_alpha baseline_yes state markets p now = .ok out → now ≠ none := by
  constructor
  · rfl
  · intro now out h hnone
    subst hnone
    simp [detect_signals] at h

/-- C10 witness: the theorem applied at a concrete monitor configuration; the
empty market list with `now = some 100` returns an (empty) signal list. -/
theorem detect_signals_default_now_raises_witness :
    detect_signals (1/5) (fun _ => none) state1 [] ⟨0, 500, 300, 1⟩ none
      = .error "TypeError: tz is an invalid keyword argument for replace"
    ∧ (some (100 : ℤ) ≠ (none : Option ℤ)) :=
  ⟨(detect_signals_default_now_raises (1/5) (fun _ => none) state1 [] ⟨0, 500, 300, 1⟩).1,
   (detect_signals_default_now_raises (1/5) (fun _ => none) state1 [] ⟨0, 500, 300, 1⟩).2
     (some 100) ([], fun _ => none) rfl⟩

/-- C4 (amended): with a positive `min_abs_move`, the pass that first seeds an
instrument's EMA baseline never emits a signal for it; and a later pass whose
EMA-updated deviation `delta = current - baseline` satisfies
`|delta| ≥ min_abs_move`, whose ring buffer holds at least `min_trades`
trades, and whose most recent trade has notional at least `min_notional` and
age within `[0, max_age_seconds]`, emits exactly one signal for that
instrument, with direction `short_yes` if `delta > 0` and `short_no`
otherwise. -/
theorem detect_signals_seed_and_second_pass
    (ema_alpha : ℚ) (state : StreamState) (p : DetectParams) (now_ts : ℤ)
    (baseline_yes : String → Option ℚ) (market : Market) :
    ((∀ c, market.condition_id = some c → baseline_yes c = none) → 0 < p.min_abs_move →
      sigList (detect_signals ema_alpha baseline_yes state [market] p (some now_ts)) = some [])
    ∧ (∀ (cid ytok : String) (book : OrderBook) (current previous baseline delta : ℚ)
        (trades : List WS.TradeEvent) (last_trade : WS.TradeEvent),
        market.platform = Platform.polymarket →
        market.condition_id = some cid → cid ≠ "" →
        market.yes_token_id = some ytok → ytok ≠ "" →
        get_orderbook_for_market state market "yes" = some book →
        estimate_yes_price book = some current →
        baseline_yes cid = some previous →
        baseline = ema_alpha * current + (1 - ema_alpha) * previous →
        delta = current - baseline →
        p.min_abs_move ≤ |delta| →
        get_last_trades state cid 50 = trades →
        p.min_trades ≤ trades.length →
        trades.getLast? = some last_trade →
        0 ≤ now_ts - last_trade.timestamp →
        now_ts - last_trade.timestamp ≤ p.max_age_seconds →
        p.min_notional ≤ last_trade.notional →
        sigList (detect_signals ema_alpha baseline_yes state [market] p (some now_ts))
          = some [⟨market, if delta > 0 then "short_yes" else "short_no",
                   current, baseline, delta, last_trade.notional, p.max_age_seconds⟩]) := by
  constructor
  · intro hfresh hmove
    obtain ⟨b, hb⟩ := detectStep_fresh ema_alpha state p now_ts baseline_yes market hfresh hmove
    simp [detect_signals, detectLoop, hb, sigList]
  · intro cid ytok book current previous baseline delta trades last_trade
      hplat hcid hc hyt hy hbook hest hprev hbase hdelta hmove htr hlen hlast hage0 hage1 hnot
    have hstep := detectStep_emit ema_alpha state p now_ts baseline_yes market cid ytok book
      current previous baseline delta trades last_trade hplat hcid hc hyt hy hbook hest hprev
      hbase hdelta hmove htr hlen hlast hage0 hage1 hnot
    simp [detect_signals, detectLoop, hstep, sigList, List.insertionSort]

set_option maxRecDepth 10000 in
/-- C4 counterexample against the claim as stated: with `min_abs_move = 0`
(a legal parameter setting), the very first detection pass — the one that
seeds the baseline, so `delta = 0` — emits a signal for the instrument,
because `|0| < 0` is false and the trade gates pass. -/
theorem detect_signals_seed_cex :
    ((fun _ => (none : Option ℚ)) "c1" = none) ∧
    sigList (detect_signals (1/5) (fun _ => none) state1 [mkt1] ⟨0, 500, 300, 1⟩ (some 100))
      = some [⟨mkt1, "short_no", 1/2, 1/2, 0, 1000, 300⟩] := by
  constructor
  · rfl
  · with_unfolding_all decide

set_option maxRecDepth 10000 in
/-- C4 witness: the amended theorem applied to the concrete first pass (seed,
with the default `min_abs_move = 0.15`) and to a concrete second pass with a
0.5 → 0.8 move corroborated by a notional-1200 trade of age 0. -/
theorem detect_signals_seed_and_second_pass_witness :
    sigList (detect_signals (1/5) (fun _ => none) state1 [mkt1] ⟨3/20, 500, 300, 1⟩ (some 100))
      = some []
    ∧ sigList (detect_signals (1/5) (fun c => if c = "c1" then some (1/2) else none) state2
        [mkt1] ⟨3/20, 500, 300, 1⟩ (some 101))
      = some [⟨mkt1, "short_yes", 4/5, 14/25, 6/25, 1200, 300⟩] := by
  constructor
  · exact (detect_signals_seed_and_second_pass (1/5) state1 ⟨3/20, 500, 300, 1⟩ 100
      (fun _ => none) mkt1).1 (fun c _ => rfl) (by with_unfolding_all decide)
  · have h := (detect_signals_seed_and_second_pass (1/5) state2 ⟨3/20, 500, 300, 1⟩ 101
      (fun c => if c = "c1" then some (1/2) else none) mkt1).2 "c1" "y1"
      ⟨[⟨79/100, 100⟩], [⟨81/100, 100⟩]⟩ (4/5) (1/2) (14/25) (6/25)
      [⟨"c1", "y1", "BUY", 2400, 1/2, 1200, 101, "Test market"⟩]
      ⟨"c1", "y1", "BUY", 2400, 1/2, 1200, 101, "Test market"⟩
      rfl rfl (by with_unfolding_all decide) rfl (by with_unfolding_all decide)
      (by with_unfolding_all decide) (by with_unfolding_all decide) rfl
      (by with_unfolding_all decide) (by with_unfolding_all decide)
      (by with_unfolding_all decide) (by with_unfolding_all decide)
      (by with_unfolding_all decide) (by with_unfolding_all decide)
      (by with_unfolding_all decide) (by with_unfolding_all decide)
      (by with_unfolding_all decide)
    exact h.trans (by with_unfolding_all decide)

end Rebalance

namespace Scanner

/-- Membership in the two-conditional-singleton concatenation produced by one
scan-loop iteration. -/
theorem mem_ite_pair {α : Type} (p q : Prop) [Decidable p] [Decidable q] (a b : α)
    (hne : a ≠ b) :
    (a ∈ (if p then [a] else []) ++ (if q then [b] else []) ↔ p)
    ∧ (b ∈ (if p then [a] else []) ++ (if q then [b] else []) ↔ q)
    ∧ ∀ o ∈ (if p then [a] else []) ++ (if q then [b] else []), o = a ∨ o = b := by
  by_cases h1 : p <;> by_cases h2 : q <;>
    simp [h1, h2, hne, Ne.symm hne]

/-- The two route records always differ (their route tags differ). -/
theorem oppNoYes_ne_oppYesNo (s : ScanSettings) (pb : PairBooks) :
    oppNoYes s pb ≠ oppYesNo s pb := by
  intro h
  have h2 := congrArg ArbOpportunity.route h
  simp [oppNoYes, oppYesNo] at h2

/-- C1: for every matched pair (with its four resolved leg books) and each of
the two routes, `scan_once` emits the route's opportunity iff the minimum of
the two legs' filled sizes is at least the configured minimum trade size, the
sum of the two legs' average fill prices (the cost) is strictly less than 1,
the profit percent `(1 - cost) * 100` is at least the configured minimum
profit percent, and each leg's average fill price passes the slippage check
against that leg's best quoted price; nothing but those two records is ever
emitted for a pair, the emitted records' profit percent equals
`(1 - cost) * 100` with cost the two-leg sum and size the minimum filled
size, an opportunity is in the scan result iff some scanned pair's route
emitted it, and the returned list is sorted descending by profit percent. -/
theorem scan_once_spec (s : ScanSettings) (pairs : List PairBooks) (pb : PairBooks) :
    (oppNoYes s pb ∈ routeOpps s pb ↔
      min (Pricing.compute_fill pb.pm_no_book .buy s.default_quote_size).filled_size
          (Pricing.compute_fill pb.op_yes_book .buy s.default_quote_size).filled_size
        ≥ s.min_trade_size
      ∧ (Pricing.compute_fill pb.pm_no_book .buy s.default_quote_size).average_price
          + (Pricing.compute_fill pb.op_yes_book .buy s.default_quote_size).average_price < 1
      ∧ (1 - ((Pricing.compute_fill pb.pm_no_book .buy s.default_quote_size).average_price
          + (Pricing.compute_fill pb.op_yes_book .buy s.default_quote_size).average_price))
          * 100 ≥ s.min_profit_percent
      ∧ Pricing.clamp_slippage (Pricing.best_price pb.pm_no_book .buy)
          (Pricing.compute_fill pb.pm_no_book .buy s.default_quote_size).average_price
          s.max_slippage_bps = true
      ∧ Pricing.clamp_slippage (Pricing.best_price pb.op_yes_book .buy)
          (Pricing.compute_fill pb.op_yes_book .buy s.default_quote_size).average_price
          s.max_slippage_bps = true)
    ∧ (oppYesNo s pb ∈ routeOpps s pb ↔
      min (Pricing.compute_fill pb.pm_yes_book .buy s.default_quote_size).filled_size
          (Pricing.compute_fill pb.op_no_book .buy s.default_quote_size).filled_size
        ≥ s.min_trade_size
      ∧ (Pricing.compute_fill pb.pm_yes_book .buy s.default_quote_size).average_price
          + (Pricing.compute_fill pb.op_no_book .buy s.default_quote_size).average_price < 1
      ∧ (1 - ((Pricing.compute_fill pb.pm_yes_book .buy s.default_quote_size).average_price
          + (Pricing.compute_fill pb.op_no_book .buy s.default_quote_size).average_price))
          * 100 ≥ s.min_profit_percent
      ∧ Pricing.clamp_slippage (Pricing.best_price pb.pm_yes_book .buy)
          (Pricing.compute_fill pb.pm_yes_book .buy s.default_quote_size).average_price
          s.max_slippage_bps = true
      ∧ Pricing.clamp_slippage (Pricing.best_price pb.op_no_book .buy)
          (Pricing.compute_fill pb.op_no_book .buy s.default_quote_size).average_price
          s.max_slippage_bps = true)
    ∧ (∀ o ∈ routeOpps s pb, o = oppNoYes s pb ∨ o = oppYesNo s pb)
    ∧ ((oppNoYes s pb).profit_percent = (1 - (oppNoYes s pb).cost) * 100
        ∧ (oppNoYes s pb).cost
            = (Pricing.compute_fill pb.pm_no_book .buy s.default_quote_size).average_price
              + (Pricing.compute_fill pb.op_yes_book .buy s.default_quote_size).average_price
        ∧ (oppYesNo s pb).profit_percent = (1 - (oppYesNo s pb).cost) * 100
        ∧ (oppYesNo s pb).cost
            = (Pricing.compute_fill pb.pm_yes_book .buy s.default_quote_size).average_price
              + (Pricing.compute_fill pb.op_no_book .buy s.default_quote_size).average_price)
    ∧ (∀ o, o ∈ scan_once s pairs ↔ ∃ pb2 ∈ pairs, o ∈ routeOpps s pb2)
    ∧ (scan_once s pairs).Sorted profitDesc := by
  have hne := oppNoYes_ne_oppYesNo s pb
  have key := mem_ite_pair
    (min (Pricing.compute_fill pb.pm_no_book .buy s.default_quote_size).filled_size
          (Pricing.compute_fill pb.op_yes_book .buy s.default_quote_size).filled_size
        ≥ s.min_trade_size
      ∧ (Pricing.compute_fill pb.pm_no_book .buy s.default_quote_size).average_price
          + (Pricing.compute_fill pb.op_yes_book .buy s.default_quote_size).average_price < 1
      ∧ (1 - ((Pricing.compute_fill pb.pm_no_book .buy s.default_quote_size).average_price
          + (Pricing.compute_fill pb.op_yes_book .buy s.default_quote_size).average_price))
          * 100 ≥ s.min_profit_percent
      ∧ Pricing.clamp_slippage (Pricing.best_price pb.pm_no_book .buy)
          (Pricing.compute_fill pb.pm_no_book .buy s.default_quote_size).average_price
          s.max_slippage_bps = true
      ∧ Pricing.clamp_slippage (Pricing.best_price pb.op_yes_book .buy)
          (Pricing.compute_fill pb.op_yes_book .buy s.default_quote_size).average_price
          s.max_slippage_bps = true)
    (min (Pricing.compute_fill pb.pm_yes_book .buy s.default_quote_size).filled_size
          (Pricing.compute_fill pb.op_no_book .buy s.default_quote_size).filled_size
        ≥ s.min_trade_size
      ∧ (Pricing.compute_fill pb.pm_yes_book .buy s.default_quote_size).average_price
          + (Pricing.compute_fill pb.op_no_book .buy s.default_quote_size).average_price < 1
      ∧ (1 - ((Pricing.compute_fill pb.pm_yes_book .buy s.default_quote_size).average_price
          + (Pricing.compute_fill pb.op_no_book .buy s.default_quote_size).average_price))
          * 100 ≥ s.min_profit_percent
      ∧ Pricing.clamp_slippage (Pricing.best_price pb.pm_yes_book .buy)
          (Pricing.compute_fill pb.pm_yes_book .buy s.default_quote_size).average_price
          s.max_slippage_bps = true
      ∧ Pricing.clamp_slippage (Pricing.best_price pb.op_no_book .buy)
          (Pricing.compute_fill pb.op_no_book .buy s.default_quote_size).average_price
          s.max_slippage_bps = true)
    (oppNoYes s pb) (oppYesNo s pb) hne
  refine ⟨key.1, key.2.1, key.2.2, ⟨rfl, rfl, rfl, rfl⟩, ?_, ?_⟩
  · intro o
    rw [scan_once, List.Perm.mem_iff (List.perm_insertionSort profitDesc _)]
    simp only [List.mem_flatten, List.mem_map]
    constructor
    · rintro ⟨l, ⟨pb2, hpb2, rfl⟩, hol⟩
      exact ⟨pb2, hpb2, hol⟩
    · rintro ⟨pb2, hpb2, hol⟩
      exact ⟨routeOpps s pb2, ⟨pb2, hpb2, rfl⟩, hol⟩
  · exact List.sorted_insertionSort profitDesc _

end Scanner

namespace Matcher

/-- Invariant of the inner scan when the accumulator already holds a
candidate at or above the threshold: the result is a candidate at least as
good, bounding every unused market scanned, and either the accumulator
survives or a strictly better unused market from the scanned list wins, with
every unused market strictly before it scoring strictly below it. -/
theorem bestScan_some (sim1 : Market → ℚ) (threshold : ℚ) (used : List String) :
    ∀ (l : List Market) (b : ℚ) (o0 : Market), threshold ≤ b →
      ∃ r o, bestScan sim1 threshold used l (some (b, o0)) = some (r, o)
        ∧ b ≤ r ∧ threshold ≤ r
        ∧ (∀ op ∈ l, op.market_id ∉ used → sim1 op ≤ r)
        ∧ ((r = b ∧ o = o0)
            ∨ (o.market_id ∉ used ∧ r = sim1 o ∧ b < r
                ∧ ∃ l1 l2, l = l1 ++ o :: l2
                  ∧ ∀ op ∈ l1, op.market_id ∉ used → sim1 op < r)) := by
  intro l
  induction l with
  | nil =>
    intro b o0 hb
    exact ⟨b, o0, rfl, le_refl b, hb, by simp, Or.inl ⟨rfl, rfl⟩⟩
  | cons op rest ih =>
    intro b o0 hb
    by_cases hu : op.market_id ∈ used
    · obtain ⟨r, o, heq, hbr, hthr, hall, hcase⟩ := ih b o0 hb
      refine ⟨r, o, ?_, hbr, hthr, ?_, ?_⟩
      · simp only [bestScan, if_pos hu]
        exact heq
      · intro op2 hmem hun
        rcases List.mem_cons.mp hmem with h | h
        · exact absurd (h ▸ hu) hun
        · exact hall op2 h hun
      · rcases hcase with h | ⟨h1, h2, h3, l1, l2, hsplit, hearly⟩
        · exact Or.inl h
        · refine Or.inr ⟨h1, h2, h3, op :: l1, l2, by simp [hsplit], ?_⟩
          intro op2 hmem hun
          rcases List.mem_cons.mp hmem with h | h
          · exact absurd (h ▸ hu) hun
          · exact hearly op2 h hun
    · by_cases h1 : threshold ≤ sim1 op
      · by_cases h2 : b < sim1 op
        · obtain ⟨r, o, heq, hbr, hthr, hall, hcase⟩ := ih (sim1 op) op h1
          refine ⟨r, o, ?_, le_trans (le_of_lt h2) hbr, hthr, ?_, ?_⟩
          · simp only [bestScan, if_neg hu]
            simp [ge_iff_le, gt_iff_lt, h1, h2]
            exact heq
          · intro op2 hmem hun
            rcases List.mem_cons.mp hmem with h | h
            · exact h ▸ hbr
            · exact hall op2 h hun
          · rcases hcase with ⟨hr, ho⟩ | ⟨ho1, ho2, hlt, l1, l2, hsplit, hearly⟩
            · refine Or.inr ⟨ho ▸ hu, ho ▸ hr, hr ▸ h2, [], rest, by simp [ho], ?_⟩
              intro op2 hmem
              simp at hmem
            · refine Or.inr ⟨ho1, ho2, lt_trans h2 hlt, op :: l1, l2, by simp [hsplit], ?_⟩
              intro op2 hmem hun
              rcases List.mem_cons.mp hmem with h | h
              · exact h ▸ hlt
              · exact hearly op2 h hun
        · obtain ⟨r, o, heq, hbr, hthr, hall, hcase⟩ := ih b o0 hb
          refine ⟨r, o, ?_, hbr, hthr, ?_, ?_⟩
          · simp only [bestScan, if_neg hu]
            simp [ge_iff_le, gt_iff_lt, h1, h2]
            exact heq
          · intro op2 hmem hun
            rcases List.mem_cons.mp hmem with h | h
            · exact h ▸ le_trans (le_of_not_lt h2) hbr
            · exact hall op2 h hun
          · rcases hcase with h | ⟨ho1, ho2, hlt, l1, l2, hsplit, hearly⟩
            · exact Or.inl h
            · refine Or.inr ⟨ho1, ho2, hlt, op :: l1, l2, by simp [hsplit], ?_⟩
              intro op2 hmem hun
              rcases List.mem_cons.mp hmem with h | h
              · exact h ▸ lt_of_le_of_lt (le_of_not_lt h2) hlt
              · exact hearly op2 h hun
      · obtain ⟨r, o, heq, hbr, hthr, hall, hcase⟩ := ih b o0 hb
        refine ⟨r, o, ?_, hbr, hthr, ?_, ?_⟩
        · simp only [bestScan, if_neg hu]
          simp [ge_iff_le, gt_iff_lt, h1]
          exact heq
        · intro op2 hmem hun
          rcases List.mem_cons.mp hmem with h | h
          · exact h ▸ le_trans (le_of_lt (lt_of_lt_of_le (lt_of_not_ge h1) hb)) hbr
          · exact hall op2 h hun
        · rcases hcase with h | ⟨ho1, ho2, hlt, l1, l2, hsplit, hearly⟩
          · exact Or.inl h
          · refine Or.inr ⟨ho1, ho2, hlt, op :: l1, l2, by simp [hsplit], ?_⟩
            intro op2 hmem hun
            rcases List.mem_cons.mp hmem with h | h
            · exact h ▸ lt_of_lt_of_le (lt_of_not_ge h1) (le_trans hb (le_of_lt hlt))
            · exact hearly op2 h hun

end Matcher

namespace Matcher

/-- Outcome of the inner scan started with no candidate: either no unused
market reaches the threshold and the scan yields nothing, or it yields the
first unused market attaining the maximum similarity among the unused ones,
at or above the threshold. -/
theorem bestScan_none (sim1 : Market → ℚ) (threshold : ℚ) (used : List String) :
    ∀ l : List Market,
      (bestScan sim1 threshold used l none = none
        ∧ ∀ op ∈ l, op.market_id ∉ used → sim1 op < threshold)
      ∨ ∃ r o, bestScan sim1 threshold used l none = some (r, o)
          ∧ o.market_id ∉ used ∧ r = sim1 o ∧ threshold ≤ r
          ∧ (∀ op ∈ l, op.market_id ∉ used → sim1 op ≤ r)
          ∧ ∃ l1 l2, l = l1 ++ o :: l2
              ∧ ∀ op ∈ l1, op.market_id ∉ used → sim1 op < r := by
  intro l
  induction l with
  | nil =>
    left
    exact ⟨rfl, by simp⟩
  | cons op rest ih =>
    by_cases hu : op.market_id ∈ used
    · rcases ih with ⟨heq, hlt⟩ | ⟨r, o, heq, ho1, ho2, ho3, hall, l1, l2, hsplit, hearly⟩
      · left
        refine ⟨?_, ?_⟩
        · simp only [bestScan, if_pos hu]
          exact heq
        · intro op2 hmem hun
          rcases List.mem_cons.mp hmem with h | h
          · exact absurd (h ▸ hu) hun
          · exact hlt op2 h hun
      · right
        refine ⟨r, o, ?_, ho1, ho2, ho3, ?_, op :: l1, l2, by simp [hsplit], ?_⟩
        · simp only [bestScan, if_pos hu]
          exact heq
        · intro op2 hmem hun
          rcases List.mem_cons.mp hmem with h | h
          · exact absurd (h ▸ hu) hun
          · exact hall op2 h hun
        · intro op2 hmem hun
          rcases List.mem_cons.mp hmem with h | h
          · exact absurd (h ▸ hu) hun
          · exact hearly op2 h hun
    · by_cases h1 : threshold ≤ sim1 op
      · obtain ⟨r, o, heq, hbr, hthr, hall, hcase⟩ :=
          bestScan_some sim1 threshold used rest (sim1 op) op h1
        right
        refine ⟨r, o, ?_, ?_, ?_, hthr, ?_, ?_⟩
        · simp only [bestScan, if_neg hu]
          simp [ge_iff_le, h1]
          exact heq
        · rcases hcase with ⟨hr, ho⟩ | ⟨ho1, _, _, _⟩
          · exact ho ▸ hu
          · exact ho1
        · rcases hcase with ⟨hr, ho⟩ | ⟨_, ho2, _, _⟩
          · rw [hr, ho]
          · exact ho2
        · intro op2 hmem hun
          rcases List.mem_cons.mp hmem with h | h
          · exact h ▸ hbr
          · exact hall op2 h hun
        · rcases hcase with ⟨hr, ho⟩ | ⟨ho1, ho2, hlt, l1, l2, hsplit, hearly⟩
          · refine ⟨[], rest, by simp [ho], ?_⟩
            intro op2 hmem
            simp at hmem
          · refine ⟨op :: l1, l2, by simp [hsplit], ?_⟩
            intro op2 hmem hun
            rcases List.mem_cons.mp hmem with h | h
            · exact h ▸ hlt
            · exact hearly op2 h hun
      · rcases ih with ⟨heq, hlt⟩ | ⟨r, o, heq, ho1, ho2, ho3, hall, l1, l2, hsplit, hearly⟩
        · left
          refine ⟨?_, ?_⟩
          · simp only [bestScan, if_neg hu]
            simp [ge_iff_le, h1]
            exact heq
          · intro op2 hmem hun
            rcases List.mem_cons.mp hmem with h | h
            · exact h ▸ lt_of_not_ge h1
            · exact hlt op2 h hun
        · right
          refine ⟨r, o, ?_, ho1, ho2, ho3, ?_, op :: l1, l2, by simp [hsplit], ?_⟩
          · simp only [bestScan, if_neg hu]
            simp [ge_iff_le, h1]
            exact heq
          · intro op2 hmem hun
            rcases List.mem_cons.mp hmem with h | h
            · exact h ▸ le_trans (le_of_lt (lt_of_not_ge h1)) ho3
            · exact hall op2 h hun
          · intro op2 hmem hun
            rcases List.mem_cons.mp hmem with h | h
            · exact h ▸ lt_of_lt_of_le (lt_of_not_ge h1) ho3
            · exact hearly op2 h hun

end Matcher

namespace Matcher

/-- The outer loop satisfies the greedy policy and the structural claim
properties, for any starting used-set. -/
theorem matchLoop_spec (rt : String → String → ℚ) (ops : List Market) (threshold : ℚ) :
    ∀ (pms : List Market) (used : List String),
      Greedy rt threshold ops used pms (matchLoop rt ops threshold pms used)
      ∧ (∀ p ∈ matchLoop rt ops threshold pms used,
          threshold ≤ p.similarity ∧ p.similarity = sim rt p.polymarket p.opinion
            ∧ p.opinion ∈ ops ∧ p.opinion.market_id ∉ used)
      ∧ ((matchLoop rt ops threshold pms used).map (fun p => p.opinion.market_id)).Nodup
      ∧ ((matchLoop rt ops threshold pms used).map (fun p => p.polymarket)).Sublist pms := by
  intro pms
  induction pms with
  | nil =>
    intro used
    exact ⟨Greedy.nil used, by simp [matchLoop], by simp [matchLoop], by simp [matchLoop]⟩
  | cons pm rest ih =>
    intro used
    rcases bestScan_none (fun op => sim rt pm op) threshold used ops with
      ⟨heq, hlt⟩ | ⟨r, o, heq, ho1, ho2, ho3, hall, l1, l2, hsplit, hearly⟩
    · have hred : matchLoop rt ops threshold (pm :: rest) used
          = matchLoop rt ops threshold rest used := by
        simp only [matchLoop, heq]
      obtain ⟨g, hprop, hnodup, hsub⟩ := ih used
      rw [hred]
      exact ⟨Greedy.skip used pm rest _ hlt g, hprop, hnodup, hsub.cons pm⟩
    · have hred : matchLoop rt ops threshold (pm :: rest) used
          = ⟨pm, o, r⟩ :: matchLoop rt ops threshold rest (o.market_id :: used) := by
        simp only [matchLoop, heq]
      obtain ⟨g, hprop, hnodup, hsub⟩ := ih (o.market_id :: used)
      rw [hred]
      have homem : o ∈ ops := by
        rw [hsplit]
        exact List.mem_append_right l1 (List.mem_cons_self o l2)
      refine ⟨?_, ?_, ?_, ?_⟩
      · exact Greedy.pick used pm rest _ o r l1 l2 hsplit ho1 ho2 ho3 hall hearly g
      · intro p hp
        rcases List.mem_cons.mp hp with h | h
        · subst h
          exact ⟨ho3, ho2, homem, ho1⟩
        · obtain ⟨h1, h2, h3, h4⟩ := hprop p h
          exact ⟨h1, h2, h3, fun hmem => h4 (List.mem_cons_of_mem _ hmem)⟩
      · rw [List.map_cons, List.nodup_cons]
        refine ⟨?_, hnodup⟩
        intro hmem
        obtain ⟨p, hp, hid⟩ := List.mem_map.mp hmem
        exact (hprop p hp).2.2.2 (by rw [hid]; exact List.mem_cons_self _ _)
      · rw [List.map_cons]
        exact List.Sublist.cons₂ pm hsub

/-- C9: every pair emitted by `match_markets` has a case-insensitive
title-similarity at least the threshold (and carries exactly that
similarity), each venue-B market appears in at most one emitted pair (the
emitted venue-B market ids are pairwise distinct), pairs are emitted in
venue-A iteration order (the emitted venue-A markets form a sublist of the
venue-A list), and the whole run follows the greedy policy `Greedy`: each
venue-A market is either skipped, when no not-yet-used venue-B market reaches
the threshold, or paired with a not-yet-used venue-B market achieving the
maximum similarity, the first maximum encountered kept on ties. -/
theorem match_markets_spec (rt : String → String → ℚ)
    (polymarkets opinion_markets : List Market) (threshold : ℚ) :
    Greedy rt threshold opinion_markets [] polymarkets
      (match_markets rt polymarkets opinion_markets threshold)
    ∧ (∀ p ∈ match_markets rt polymarkets opinion_markets threshold,
        threshold ≤ p.similarity ∧ p.similarity = sim rt p.polymarket p.opinion
          ∧ p.opinion ∈ opinion_markets)
    ∧ ((match_markets rt polymarkets opinion_markets threshold).map
        (fun p => p.opinion.market_id)).Nodup
    ∧ ((match_markets rt polymarkets opinion_markets threshold).map
        (fun p => p.polymarket)).Sublist polymarkets := by
  obtain ⟨g, hprop, hnodup, hsub⟩ :=
    matchLoop_spec rt opinion_markets threshold polymarkets []
  exact ⟨g, fun p hp =>
    ⟨(hprop p hp).1, (hprop p hp).2.1, (hprop p hp).2.2.1⟩, hnodup, hsub⟩

/-- C9 witness: the theorem applied to a concrete matcher run in which the
two titles agree up to case, with the default threshold 0.6. -/
theorem match_markets_spec_witness :
    (3/5 : ℚ) ≤ (⟨Matcher.mktA, Matcher.mktB, 1⟩ : MatchedMarket).similarity
    ∧ (⟨Matcher.mktA, Matcher.mktB, 1⟩ : MatchedMarket).opinion ∈ [Matcher.mktB] := by
  have h := (Matcher.match_markets_spec Matcher.rt0 [Matcher.mktA] [Matcher.mktB] (3/5)).2.1
    ⟨Matcher.mktA, Matcher.mktB, 1⟩ (by with_unfolding_all decide)
  exact ⟨h.1, h.2.2⟩

end Matcher

namespace Scanner

/-- C1 witness: on the concrete pair books `pb0` the `PM_NO + OP_YES` route
(cost 0.9, profit 10 percent, size 10) is emitted by the scan. -/
theorem scan_once_spec_witness :
    Scanner.oppNoYes Scanner.s0 Scanner.pb0 ∈ Scanner.scan_once Scanner.s0 [Scanner.pb0] := by
  have h := Scanner.scan_once_spec Scanner.s0 [Scanner.pb0] Scanner.pb0
  exact (h.2.2.2.2.1 (Scanner.oppNoYes Scanner.s0 Scanner.pb0)).mpr
    ⟨Scanner.pb0, by simp, h.1.mpr (by with_unfolding_all decide)⟩

end Scanner

namespace Prob

theorem gauss_integrable :
    MeasureTheory.Integrable (fun t : ℝ => Real.exp (-t ^ 2)) := by
  have h := integrable_exp_neg_mul_sq (one_pos)
  simpa using h

theorem gauss_integral_Ioi :
    ∫ t in Set.Ioi (0:ℝ), Real.exp (-t ^ 2) = Real.sqrt Real.pi / 2 := by
  have h := integral_gaussian_Ioi 1
  simpa using h

theorem gauss_Ioi_pos (x : ℝ) : 0 < ∫ t in Set.Ioi x, Real.exp (-t ^ 2) := by
  refine (MeasureTheory.setIntegral_pos_iff_support_of_nonneg_ae ?_ ?_).mpr ?_
  · exact Filter.Eventually.of_forall (fun t => (Real.exp_pos _).le)
  · exact gauss_integrable.integrableOn
  · have hsupp : Function.support (fun t : ℝ => Real.exp (-t ^ 2)) = Set.univ := by
      ext t
      simp [Function.mem_support, Real.exp_ne_zero]
    rw [hsupp, Set.univ_inter, Real.volume_Ioi]
    simp

theorem gauss_int_lt (x : ℝ) :
    ∫ t in (0:ℝ)..x, Real.exp (-t ^ 2) < Real.sqrt Real.pi / 2 := by
  rcases le_or_lt x 0 with hx | hx
  · have h1 : ∫ t in (0:ℝ)..x, Real.exp (-t ^ 2)
        = - ∫ t in x..(0:ℝ), Real.exp (-t ^ 2) := (intervalIntegral.integral_symm x 0)
    have h2 : 0 ≤ ∫ t in x..(0:ℝ), Real.exp (-t ^ 2) :=
      intervalIntegral.integral_nonneg hx (fun t _ => (Real.exp_pos _).le)
    have h3 : 0 < Real.sqrt Real.pi / 2 := by positivity
    rw [h1]
    linarith
  · have hd : Disjoint (Set.Ioc (0:ℝ) x) (Set.Ioi x) := by
      apply Set.disjoint_left.mpr
      intro t ht1 ht2
      exact absurd ht2 (not_lt.mpr ht1.2)
    have hu : Set.Ioc (0:ℝ) x ∪ Set.Ioi x = Set.Ioi 0 :=
      Set.Ioc_union_Ioi_eq_Ioi (le_of_lt hx)
    have hsplit : (∫ t in Set.Ioc (0:ℝ) x, Real.exp (-t ^ 2))
        + ∫ t in Set.Ioi x, Real.exp (-t ^ 2) = Real.sqrt Real.pi / 2 := by
      rw [← gauss_integral_Ioi, ← hu,
        MeasureTheory.setIntegral_union hd measurableSet_Ioi
          gauss_integrable.integrableOn gauss_integrable.integrableOn]
    have hioc : ∫ t in (0:ℝ)..x, Real.exp (-t ^ 2)
        = ∫ t in Set.Ioc (0:ℝ) x, Real.exp (-t ^ 2) :=
      intervalIntegral.integral_of_le (le_of_lt hx)
    have hpos := gauss_Ioi_pos x
    rw [hioc]
    linarith

theorem erf_lt_one (x : ℝ) : erf x < 1 := by
  unfold erf
  have hπ : 0 < Real.sqrt Real.pi := Real.sqrt_pos.mpr Real.pi_pos
  have h2 : 2 / Real.sqrt Real.pi * ∫ t in (0:ℝ)..x, Real.exp (-t ^ 2)
      < 2 / Real.sqrt Real.pi * (Real.sqrt Real.pi / 2) :=
    mul_lt_mul_of_pos_left (gauss_int_lt x) (by positivity)
  have h3 : 2 / Real.sqrt Real.pi * (Real.sqrt Real.pi / 2) = 1 := by
    field_simp
  linarith

theorem erf_neg (x : ℝ) : erf (-x) = - erf x := by
  unfold erf
  have h1 : (∫ t in (0:ℝ)..x, Real.exp (-(-t) ^ 2))
      = ∫ t in (-x)..(-(0:ℝ)), Real.exp (-t ^ 2) :=
    intervalIntegral.integral_comp_neg (fun t => Real.exp (-t ^ 2))
  simp only [neg_sq, neg_zero] at h1
  have h2 : (∫ t in (0:ℝ)..(-x), Real.exp (-t ^ 2))
      = - ∫ t in (-x)..(0:ℝ), Real.exp (-t ^ 2) := intervalIntegral.integral_symm (-x) 0
  rw [h2, ← h1]
  ring

theorem neg_one_lt_erf (x : ℝ) : -1 < erf x := by
  have h := erf_lt_one (-x)
  rw [erf_neg] at h
  linarith

theorem norm_cdf_pos (x : ℝ) : 0 < norm_cdf x := by
  unfold norm_cdf
  have h := neg_one_lt_erf (x / Real.sqrt 2)
  nlinarith

theorem norm_cdf_lt_one (x : ℝ) : norm_cdf x < 1 := by
  unfold norm_cdf
  have h := erf_lt_one (x / Real.sqrt 2)
  nlinarith

end Prob

namespace Prob

/-- C6: for positive spot, barrier, time and volatility (any drift, either
direction) `one_touch_prob` returns a value clamped to `[0, 1]` and
`no_touch_prob` returns its exact complement, so their sum is 1 (within the
claimed 1e-3); and both functions return `None` exactly when spot, barrier,
time or volatility is non-positive. -/
theorem one_touch_no_touch_spec (spot barrier years vol drift : ℝ) (direction : String) :
    ((0 < spot ∧ 0 < barrier ∧ 0 < years ∧ 0 < vol) →
      ∃ p, one_touch_prob spot barrier years vol drift direction = some p
        ∧ 0 ≤ p ∧ p ≤ 1
        ∧ no_touch_prob spot barrier years vol drift direction = some (1 - p)
        ∧ |p + (1 - p) - 1| ≤ 1 / 1000)
    ∧ (one_touch_prob spot barrier years vol drift direction = none
        ↔ (spot ≤ 0 ∨ barrier ≤ 0 ∨ years ≤ 0 ∨ vol ≤ 0))
    ∧ (no_touch_prob spot barrier years vol drift direction = none
        ↔ (spot ≤ 0 ∨ barrier ≤ 0 ∨ years ≤ 0 ∨ vol ≤ 0)) := by
  by_cases hguard : spot ≤ 0 ∨ barrier ≤ 0 ∨ years ≤ 0 ∨ vol ≤ 0
  · refine ⟨?_, ?_, ?_⟩
    · rintro ⟨h1, h2, h3, h4⟩
      rcases hguard with h | h | h | h <;> linarith
    · simp [one_touch_prob, hguard]
    · simp [no_touch_prob, one_touch_prob, hguard]
  · have hg := hguard
    push_neg at hg
    obtain ⟨h1, h2, h3, h4⟩ := hg
    have hden : vol * Real.sqrt years ≠ 0 := by positivity
    obtain ⟨p, hres⟩ : ∃ p, one_touch_prob spot barrier years vol drift direction = some p := by
      cases hres : one_touch_prob spot barrier years vol drift direction with
      | none =>
        exfalso
        simp [one_touch_prob, hguard, hden] at hres
      | some p => exact ⟨p, rfl⟩
    have hres' := hres
    simp only [one_touch_prob, hguard, hden, if_false, Option.some.injEq] at hres'
    have hp0 : 0 ≤ p := by
      rw [← hres']
      exact le_max_left _ _
    have hp1 : p ≤ 1 := by
      rw [← hres']
      exact max_le zero_le_one (min_le_left _ _)
    refine ⟨?_, ?_, ?_⟩
    · intro _
      refine ⟨p, hres, hp0, hp1, ?_, ?_⟩
      · simp only [no_touch_prob, hres]
        rw [max_eq_right (by linarith)]
      · simp
    · constructor
      · intro h
        rw [hres] at h
        exact absurd h (by simp)
      · intro h
        exact absurd h hguard
    · constructor
      · intro h
        simp only [no_touch_prob, hres] at h
        exact absurd h (by simp)
      · intro h
        exact absurd h hguard

/-- C6 witness: the theorem applied at spot 2, barrier 1, one year, unit
volatility, zero drift, direction "up". -/
theorem one_touch_no_touch_spec_witness :
    ∃ p, Prob.one_touch_prob 2 1 1 1 0 "up" = some p
      ∧ 0 ≤ p ∧ p ≤ 1
      ∧ Prob.no_touch_prob 2 1 1 1 0 "up" = some (1 - p)
      ∧ |p + (1 - p) - 1| ≤ 1 / 1000 :=
  (Prob.one_touch_no_touch_spec 2 1 1 1 0 "up").1
    ⟨by norm_num, by norm_num, by norm_num, by norm_num⟩

/-- C5: the digital probability is undefined exactly when the expiry fails to
parse, spot or strike is non-positive, or the remaining time is non-positive;
otherwise it returns `norm_cdf (d2)` with
`d2 = (ln(spot/strike) - sigma^2 T / 2) / (sigma sqrt T)` and
`sigma = max(vol, 1e-6)`, and any returned value lies strictly between 0 and
1. -/
theorem implied_prob_above_spec (spot strike : ℝ) (expiry : Option ℝ) (now vol : ℝ) :
    ((implied_prob_above spot strike expiry now vol).1 = none ↔
      (expiry = none ∨ spot ≤ 0 ∨ strike ≤ 0 ∨ ∃ e, expiry = some e ∧ e - now ≤ 0))
    ∧ (∀ e, expiry = some e → 0 < spot → 0 < strike → 0 < e - now →
        (implied_prob_above spot strike expiry now vol).1
          = some (norm_cdf ((Real.log (spot / strike)
              - 0.5 * max vol (1 / 1000000) * max vol (1 / 1000000)
                * ((e - now) / (365 * 24 * 3600)))
              / (max vol (1 / 1000000) * Real.sqrt ((e - now) / (365 * 24 * 3600))))))
    ∧ (∀ p, (implied_prob_above spot strike expiry now vol).1 = some p →
        0 < p ∧ p < 1) := by
  have hsig : (0:ℝ) < max vol (1 / 1000000) :=
    lt_of_lt_of_le (by norm_num) (le_max_right vol (1 / 1000000))
  cases expiry with
  | none =>
    refine ⟨by simp [implied_prob_above], ?_, ?_⟩
    · intro e he
      exact absurd he (by simp)
    · intro p hp
      simp [implied_prob_above] at hp
  | some e =>
    by_cases hss : spot ≤ 0 ∨ strike ≤ 0
    · refine ⟨?_, ?_, ?_⟩
      · simp only [implied_prob_above, if_pos hss]
        simp
        tauto
      · intro e2 he2 hspot hstrike _
        rcases hss with h | h <;> linarith
      · intro p hp
        simp only [implied_prob_above, if_pos hss] at hp
        exact absurd hp (by simp)
    · by_cases hsec : e - now ≤ 0
      · refine ⟨?_, ?_, ?_⟩
        · simp only [implied_prob_above, if_neg hss, if_pos hsec]
          simp
          right
          right
          linarith
        · intro e2 he2 _ _ hpos
          rw [Option.some.injEq] at he2
          subst he2
          linarith
        · intro p hp
          simp only [implied_prob_above, if_neg hss, if_pos hsec] at hp
          exact absurd hp (by simp)
      · have hyears : 0 < (e - now) / (365 * 24 * 3600) := by
          have : (0:ℝ) < e - now := lt_of_not_ge hsec
          positivity
        have hden : ¬ (max vol (1 / 1000000) * Real.sqrt ((e - now) / (365 * 24 * 3600)) ≤ 0) := by
          push_neg
          have hs := Real.sqrt_pos.mpr hyears
          positivity
        have hred : (implied_prob_above spot strike (some e) now vol).1
            = some (norm_cdf ((Real.log (spot / strike)
                - 0.5 * max vol (1 / 1000000) * max vol (1 / 1000000)
                  * ((e - now) / (365 * 24 * 3600)))
                / (max vol (1 / 1000000) * Real.sqrt ((e - now) / (365 * 24 * 3600))))) := by
          simp only [implied_prob_above, if_neg hss, if_neg hsec, if_neg hden]
        refine ⟨?_, ?_, ?_⟩
        · rw [hred]
          simp only [Option.some.injEq]
          constructor
          · intro h
            exact absurd h (by simp)
          · rintro (h | h | h | ⟨e2, he2, hle⟩)
            · exact absurd h (by simp)
            · exact absurd (Or.inl h) hss
            · exact absurd (Or.inr h) hss
            · subst he2
              exact absurd hle hsec
        · intro e2 he2 _ _ _
          rw [Option.some.injEq] at he2
          subst he2
          exact hred
        · intro p hp
          rw [hred, Option.some.injEq] at hp
          rw [← hp]
          exact ⟨norm_cdf_pos _, norm_cdf_lt_one _⟩

/-- C5 witness: the "in particular" scenario — spot 100, strike 150,
T = 0.1 years (expiry timestamp 3153600 with now 0), volatility 1 — yields a
defined probability strictly between 0 and 1. -/
theorem implied_prob_above_spec_witness :
    ∃ p, (Prob.implied_prob_above 100 150 (some 3153600) 0 1).1 = some p
      ∧ 0 < p ∧ p < 1 := by
  have hspec := Prob.implied_prob_above_spec 100 150 (some 3153600) 0 1
  have heq := hspec.2.1 3153600 rfl (by norm_num) (by norm_num) (by norm_num)
  exact ⟨_, heq, hspec.2.2 _ heq⟩

end Prob

namespace Hedge

/-- With the realized-volatility path disabled, one mapping iteration never
raises: every branch skips or produces an opportunity. -/
theorem scanStep_ok_of_not_realized (env : HedgeEnv) (now default_vol min_gap_sigma : ℝ)
    (min_edge_percent : Option ℝ) (mapping : HedgeMapping) :
    ∃ r, scanStep env now default_vol min_gap_sigma false min_edge_percent mapping
      = .ok r := by
  cases hr : scanStep env now default_vol min_gap_sigma false min_edge_percent mapping with
  | ok r => exact ⟨r, rfl⟩
  | error e =>
    exfalso
    by_cases h1 : mapping.market_id ∉ env.markets
    · simp [scanStep, h1] at hr
    · cases hs : env.spot mapping.underlying_symbol with
      | none => simp [scanStep, h1, hs] at hr
      | some spot => simp [scanStep, h1, hs] at hr

/-- With the realized-volatility path disabled, the whole mapping loop
completes. -/
theorem scanLoop_ok_of_not_realized (env : HedgeEnv) (now default_vol min_gap_sigma : ℝ)
    (min_edge_percent : Option ℝ) :
    ∀ mappings, ∃ l, scanLoop env now default_vol min_gap_sigma false min_edge_percent
      mappings = .ok l := by
  intro mappings
  induction mappings with
  | nil => exact ⟨[], rfl⟩
  | cons m rest ih =>
    obtain ⟨l, hl⟩ := ih
    obtain ⟨r, hr⟩ := scanStep_ok_of_not_realized env now default_vol min_gap_sigma
      min_edge_percent m
    cases r with
    | none => exact ⟨l, by simp [scanLoop, hr, hl]⟩
    | some o => exact ⟨o :: l, by simp [scanLoop, hr, hl]⟩

/-- C3: the claim fails on the code.  With `use_realized_vol = True` (the
default), the first mapping whose market is listed and whose mark-price fetch
succeeds reaches `if cache_key not in vol_cache:` — and the module-level name
`vol_cache` is never bound (its only assignment sits unreachably after the
`return` inside `_implied_touch_prob`, `services/hedge_scanner.py:299`), so
the scan raises `NameError` instead of falling back to `est_vol` or the
default volatility.  With the realized-volatility path disabled the scan
completes for every mapping batch. -/
theorem scan_hedged_realized_vol_spec :
    Hedge.scan_hedged_opportunities Hedge.btcEnv 0 1 (1/5) true none [Hedge.btcMapping]
      = .error "NameError: name vol_cache is not defined"
    ∧ ∀ (env : Hedge.HedgeEnv) (now default_vol min_gap_sigma : ℝ)
        (min_edge_percent : Option ℝ) (mappings : List Hedge.HedgeMapping),
        ∃ l, Hedge.scan_hedged_opportunities env now default_vol min_gap_sigma false
            min_edge_percent mappings = .ok l := by
  constructor
  · rfl
  · intro env now default_vol min_gap_sigma min_edge_percent mappings
    obtain ⟨l, hl⟩ := scanLoop_ok_of_not_realized env now default_vol min_gap_sigma
      min_edge_percent mappings
    exact ⟨l.insertionSort edgeDesc, by simp [scan_hedged_opportunities, hl]⟩

end Hedge
